import Mathlib

/-!
Verification of the OrderedMap repository (orderedmap.go): an
insertion-order-preserving associative container with a JSON codec that
rejects duplicate object keys at any nesting depth.

The container state (`OrderedMap`), its operations (`Set`, `Delete`, `Get`,
`Keys`, `Len`, `GetKeyAt`, `GetValueAt`, `SortKeys`, `Sort`), the duplicate
scanner (`CheckDuplicate`), the order-recovery pass (`decode`,
`decodeSlice`), and the codec entry points (`MarshalJSON`, `UnmarshalJSON`)
are translated from the Go source.  Go's streaming JSON decoder
(`encoding/json.Decoder.Token`) is modelled as a list of lexical tokens
(`Tok`); Go's generic one-shot decoder (`json.Unmarshal` into
`map[string]any`) is modelled from its documented behaviour.  Dynamically
typed Go `any` values are modelled by the closed union `GoVal`; Go's
`map[string]any` is modelled by the association list `GoEntries` (first
match wins on lookup, update-in-place on insert, exactly one entry per key
as long as insertion is the only way entries are created).
-/

set_option autoImplicit false

namespace OrderedMapSpec

/-- Lexical JSON tokens, as produced by Go's streaming decoder
(`json.Decoder.Token`): the four delimiters, strings, numbers (carried as
their literal text, since no logic in the repository inspects numeric
values), booleans and null. -/
inductive Tok where
  | lbrace
  | rbrace
  | lbrack
  | rbrack
  | tstr (s : String)
  | tnum (lit : String)
  | tbool (b : Bool)
  | tnull
  deriving DecidableEq, Repr

/-- Error kinds surfaced by the codec: a duplicate JSON key (the Go
`ErrJSONDuplicate` produced by `CheckDuplicate`, carrying the offending
key), a token-stream error (e.g. EOF from `dec.Token()`), and a type error
(a failed type assertion or a `json.Unmarshal` type mismatch). -/
inductive JErr where
  | dup (key : String)
  | tokenErr
  | typeErr
  deriving DecidableEq, Repr

mutual
/-- Model of a Go `any` value as stored in the container and produced by
decoding: the closed union of JSON-representable values.  `null` models
both the Go nil interface value and decoded JSON null (in Go the two are
the same value).  `gomap` models a plain `map[string]any` (the result of
the generic decoding pass); `omap` models an `OrderedMap` stored as a
value (keys list plus entry map). -/
inductive GoVal where
  | null
  | boolean (b : Bool)
  | number (lit : String)
  | str (s : String)
  | arr (xs : GoList)
  | gomap (m : GoEntries)
  | omap (keys : List String) (values : GoEntries)
  deriving DecidableEq, Repr

/-- A Go `[]any` slice of values. -/
inductive GoList where
  | nil
  | cons (hd : GoVal) (tl : GoList)
  deriving DecidableEq, Repr

/-- Model of a Go `map[string]any` as an association list: lookup returns
the first match, insertion updates the first match in place or appends a
fresh entry, so keys stay unique when all updates go through `insert`. -/
inductive GoEntries where
  | nil
  | cons (key : String) (val : GoVal) (tl : GoEntries)
  deriving DecidableEq, Repr
end

namespace GoEntries

/-- Go map read `m[key]`, returning `none` when absent. -/
def lookup (key : String) : GoEntries → Option GoVal
  | nil => none
  | cons k v tl => if k = key then some v else lookup key tl

/-- Go map write `m[key] = val`: update in place if present, append if
fresh. -/
def insert (key : String) (val : GoVal) : GoEntries → GoEntries
  | nil => cons key val nil
  | cons k v tl => if k = key then cons k val tl else cons k v (insert key val tl)

/-- Go built-in `delete(m, key)`. -/
def erase (key : String) : GoEntries → GoEntries
  | nil => nil
  | cons k v tl => if k = key then tl else cons k v (erase key tl)

/-- The keys of the map, in entry order (used only to state invariants;
Go map iteration order is unspecified and the source never iterates the
map). -/
def keysList : GoEntries → List String
  | nil => []
  | cons k _ tl => k :: keysList tl

@[simp] theorem lookup_nil (key : String) : lookup key nil = none := rfl

@[simp] theorem keysList_nil : keysList nil = [] := rfl

@[simp] theorem keysList_cons (k : String) (v : GoVal) (tl : GoEntries) :
    keysList (cons k v tl) = k :: keysList tl := rfl

end GoEntries

/-- The ordered container from the Go source: an explicit key-order slice
`keys` plus the backing map `values`. -/
structure OrderedMap where
  keys : List String
  values : GoEntries
  deriving DecidableEq, Repr

/-- The `New` constructor: empty keys, empty map. -/
def New : OrderedMap := ⟨[], .nil⟩

/-- `Get` returns `o.values[key]`; for an absent key the Go map read
yields the zero value of `any`, the nil interface, which is the same Go
value JSON null decodes to, hence `GoVal.null`. -/
def OrderedMap.Get (o : OrderedMap) (key : String) : GoVal :=
  (o.values.lookup key).getD .null

/-- `Set`: append the key to `keys` if it is new, then always write the
value into the map. -/
def OrderedMap.Set (o : OrderedMap) (key : String) (value : GoVal) : OrderedMap :=
  match o.values.lookup key with
  | some _ => ⟨o.keys, o.values.insert key value⟩
  | none => ⟨o.keys ++ [key], o.values.insert key value⟩

/-- `Delete`: no-op when the key is absent from the map; otherwise remove
the first occurrence of the key from `keys` and delete the map entry. -/
def OrderedMap.Delete (o : OrderedMap) (key : String) : OrderedMap :=
  match o.values.lookup key with
  | none => o
  | some _ => ⟨o.keys.erase key, o.values.erase key⟩

/-- `Keys` returns the key order. -/
def OrderedMap.Keys (o : OrderedMap) : List String := o.keys

/-- `Values` returns the values in key order (`o.values[k]` per key, so
absent entries read as nil). -/
def OrderedMap.Values (o : OrderedMap) : List GoVal := o.keys.map o.Get

/-- `Len` is the number of keys. -/
def OrderedMap.Len (o : OrderedMap) : Nat := o.keys.length

/-- `GetKeyAt` indexes `o.keys[pos]`.  The Go indexing operation panics
when `pos` is negative or not below the length; the panic is modelled as
`none`. -/
def OrderedMap.GetKeyAt (o : OrderedMap) (pos : Int) : Option String :=
  if h : 0 ≤ pos ∧ pos.toNat < o.keys.length then some (o.keys.get ⟨pos.toNat, h.2⟩)
  else none

/-- `GetValueAt` reads `k := o.keys[pos]` (panicking out of range,
modelled as `none`) and then returns the map read `o.values[k]` (nil when
absent, never a panic). -/
def OrderedMap.GetValueAt (o : OrderedMap) (pos : Int) : Option GoVal :=
  (o.GetKeyAt pos).map fun k => (o.values.lookup k).getD .null

/-- `SortKeys` hands the whole `keys` slice to the caller-supplied sort
function, which rewrites it in place; modelled as replacing `keys` by the
function's output.  `values` is untouched. -/
def OrderedMap.SortKeys (o : OrderedMap) (sortFunc : List String → List String) : OrderedMap :=
  ⟨sortFunc o.keys, o.values⟩

/-- `Sort` snapshots the entries as (key, value) pairs in key order, runs
`sort.Sort` with the caller's less function, and writes the sorted pair
keys back into `keys`.  Go's `sort.Sort` is an unspecified in-place
algorithm whose only effect is a permutation of the slice, so it is
modelled by the resulting rearrangement function `sortAlg`; `values` is
untouched. -/
def OrderedMap.Sort (o : OrderedMap)
    (sortAlg : List (String × GoVal) → List (String × GoVal)) : OrderedMap :=
  ⟨(sortAlg (o.keys.map fun k => (k, (o.values.lookup k).getD .null))).map Prod.fst, o.values⟩

mutual
/-- A JSON document: the parse tree of one syntactically valid JSON value.
Objects are member lists that may contain repeated keys, so documents with
duplicate keys (the inputs the scanner must reject) are representable.
Numbers carry their literal text.  Scanner and decoder inputs are the
token streams of such documents. -/
inductive J where
  | null
  | boolean (b : Bool)
  | number (lit : String)
  | str (s : String)
  | arr (xs : JList)
  | obj (ms : JMembers)
  deriving DecidableEq, Repr

/-- The element list of a JSON array. -/
inductive JList where
  | nil
  | cons (hd : J) (tl : JList)
  deriving DecidableEq, Repr

/-- The member list of a JSON object: key/value pairs in document order,
duplicates allowed. -/
inductive JMembers where
  | nil
  | cons (key : String) (val : J) (tl : JMembers)
  deriving DecidableEq, Repr
end

mutual
/-- The token stream of a document, as Go's `json.Decoder.Token` would
deliver it (whitespace is already insignificant at token level). -/
def J.toToks : J → List Tok
  | .null => [.tnull]
  | .boolean b => [.tbool b]
  | .number lit => [.tnum lit]
  | .str s => [.tstr s]
  | .arr xs => .lbrack :: xs.toToks ++ [.rbrack]
  | .obj ms => .lbrace :: ms.toToks ++ [.rbrace]

/-- Token stream of array elements, concatenated. -/
def JList.toToks : JList → List Tok
  | .nil => []
  | .cons hd tl => hd.toToks ++ tl.toToks

/-- Token stream of object members: each key as a string token followed by
the value's tokens. -/
def JMembers.toToks : JMembers → List Tok
  | .nil => []
  | .cons key val tl => .tstr key :: val.toToks ++ tl.toToks
end

/-- Looking a value up in an entry map yields a structurally smaller
value (used for termination of the marshal encoder, which iterates keys
and looks each value up). -/
theorem GoEntries.sizeOf_lookup : ∀ (m : GoEntries) (key : String) (v : GoVal),
    m.lookup key = some v → sizeOf v < sizeOf m
  | .nil, key, v, h => by simp [GoEntries.lookup] at h
  | .cons k v' tl, key, v, h => by
    by_cases hk : k = key
    · simp [GoEntries.lookup, hk] at h
      subst h
      simp
      omega
    · simp [GoEntries.lookup, hk] at h
      have := GoEntries.sizeOf_lookup tl key v h
      simp
      omega

mutual
/-- The JSON document Go's `json.Marshal` produces for a `GoVal`.
For an `OrderedMap` value the stdlib calls the source's `MarshalJSON`,
which emits the members in `keys` order, reading each value with the map
access `o.values[k]` (nil, i.e. null, when absent); the stdlib then
re-compacts those bytes, so at document level the result is exactly an
object with the members in key order.  A plain `gomap` is marshalled by
the stdlib itself; it is modelled in entry order (Go sorts map keys, but
every claim below constrains values to be `gomap`-free, so this branch is
never relied on). -/
def govToJ : GoVal → J
  | .null => .null
  | .boolean b => .boolean b
  | .number lit => .number lit
  | .str s => .str s
  | .arr xs => .arr (govListToJ xs)
  | .gomap m => .obj (goEntriesToJ m)
  | .omap ks m => .obj (govFieldsToJ ks m)
termination_by v => sizeOf v

/-- Marshal each slice element. -/
def govListToJ : GoList → JList
  | .nil => .nil
  | .cons hd tl => .cons (govToJ hd) (govListToJ tl)
termination_by xs => sizeOf xs

/-- Marshal plain map entries in entry order. -/
def goEntriesToJ : GoEntries → JMembers
  | .nil => .nil
  | .cons k v tl => .cons k (govToJ v) (goEntriesToJ tl)
termination_by m => sizeOf m

/-- Marshal the members of an `OrderedMap` value: iterate the key order,
reading each value out of the map (null when absent), exactly as the
source's `MarshalJSON` loop does. -/
def govFieldsToJ : List String → GoEntries → JMembers
  | [], _ => .nil
  | k :: ks, m =>
    let jv : J :=
      match hl : m.lookup k with
      | some v => govToJ v
      | none => J.null
    .cons k jv (govFieldsToJ ks m)
termination_by ks m => sizeOf m + sizeOf ks
decreasing_by
  all_goals first
  | (have hlt := GoEntries.sizeOf_lookup m k v hl
     simp
     omega)
  | (have hlt := GoEntries.sizeOf_lookup m k v hl
     simp)
  | (simp
     omega)
  | simp
end

/-- The JSON document written by `MarshalJSON` for a whole container:
the object with the container's members in `keys` order. -/
def OrderedMap.marshalJ (o : OrderedMapSpec.OrderedMap) : J :=
  .obj (govFieldsToJ o.keys o.values)

/-- Modelled from the spec: the standard JSON escaping of one character
with HTML escaping disabled (the source calls
`encoder.SetEscapeHTML(false)`), as Go's encoder applies it: quote and
backslash escaped, newline, carriage return and tab as two-character
escapes, other control characters as lowercase hexadecimal unicode
escapes, the line separators U+2028 and U+2029 escaped, everything else
(including the HTML characters) emitted literally. -/
def encChar (c : Char) : String :=
  if c = '"' then "\\\""
  else if c = '\\' then "\\\\"
  else if c = '\n' then "\\n"
  else if c = '\r' then "\\r"
  else if c = '\t' then "\\t"
  else if c.toNat < 0x20 then
    "\\u00" ++ String.mk [Nat.digitChar (c.toNat / 16), Nat.digitChar (c.toNat % 16)]
  else if c.toNat = 0x2028 ∨ c.toNat = 0x2029 then
    "\\u202" ++ String.mk [Nat.digitChar (c.toNat % 16)]
  else String.singleton c

/-- Modelled from the spec: the standard JSON string encoding (quote,
escape each character, quote). -/
def encString (s : String) : String :=
  "\"" ++ String.join (s.toList.map encChar) ++ "\""

mutual
/-- Modelled from the spec: the compact text the standard encoder
produces for a JSON document.  Nested containers reach the byte output
through the stdlib, which re-compacts the bytes their own `MarshalJSON`
returned, so nested objects are compact. -/
def encJ : J → String
  | .null => "null"
  | .boolean b => if b then "true" else "false"
  | .number lit => lit
  | .str s => encString s
  | .arr xs => "[" ++ encJList xs ++ "]"
  | .obj ms => "\x7b" ++ encJMembers ms ++ "\x7d"

/-- Compact text of array elements, comma separated. -/
def encJList : JList → String
  | .nil => ""
  | .cons hd .nil => encJ hd
  | .cons hd tl => encJ hd ++ "," ++ encJList tl

/-- Compact text of object members, comma separated. -/
def encJMembers : JMembers → String
  | .nil => ""
  | .cons k v .nil => encString k ++ ":" ++ encJ v
  | .cons k v tl => encString k ++ ":" ++ encJ v ++ "," ++ encJMembers tl
end

/-- The member loop of the source's `MarshalJSON`: for each key (the
`i > 0` comma test is modelled by the is-first flag), `encoder.Encode`
of the key — the stdlib writes the encoded string followed by a newline —
then a colon, then `encoder.Encode` of the map read `o.values[k]` — the
stdlib writes the compact encoding of the value followed by a newline. -/
def marshalFields (values : GoEntries) : List String → Bool → String
  | [], _ => ""
  | k :: ks, isFirst =>
    (if isFirst then "" else ",")
      ++ encString k ++ "\n" ++ ":"
      ++ encJ (govToJ ((values.lookup k).getD .null)) ++ "\n"
      ++ marshalFields values ks false

/-- The source's `MarshalJSON`: an opening brace, the member loop, a
closing brace. -/
def OrderedMap.MarshalJSON (o : OrderedMap) : String :=
  "\x7b" ++ marshalFields o.values o.keys true ++ "\x7d"

mutual
/-- The source's `CheckDuplicate` over the token stream.  Reads one token:
a stream error is a token error; a non-delimiter token means a scalar
value, nothing to do; an opening brace starts the member scan with an
empty seen set; an opening bracket starts the element scan.  (A closing
delimiter read here falls through the Go switch and is consumed without
effect, which cannot happen at a value position of a well-formed stream.)
The fuel argument only forces termination: every use below supplies fuel
exceeding the stream length, which the correspondence lemmas show is
enough. -/
def CheckDuplicate : Nat → List Tok → Except JErr (List Tok)
  | 0, _ => .error .tokenErr
  | fuel + 1, ts =>
    match ts with
    | [] => .error .tokenErr
    | t :: rest =>
      match t with
      | .lbrace => checkDupMembers fuel [] rest
      | .lbrack => checkDupElems fuel rest
      | _ => .ok rest

/-- The object loop of `CheckDuplicate`: while `d.More()` (the next token
is not the closing brace), read the member key — the Go type assertion
`t.(string)` on a non-string is modelled as a type error — fail if the
key was already seen at this level, otherwise record it and recursively
scan the member value; finally consume the closing brace.  On a truncated
stream both the `More` path and the closing-brace read error, so the
empty stream is a token error. -/
def checkDupMembers : Nat → List String → List Tok → Except JErr (List Tok)
  | 0, _, _ => .error .tokenErr
  | fuel + 1, seen, ts =>
    match ts with
    | [] => .error .tokenErr
    | .rbrace :: rest => .ok rest
    | .tstr key :: rest =>
      if key ∈ seen then .error (.dup key)
      else
        match CheckDuplicate fuel rest with
        | .error e => .error e
        | .ok rest2 => checkDupMembers fuel (key :: seen) rest2
    | _ :: _ => .error .typeErr

/-- The array loop of `CheckDuplicate`: while `d.More()` (the next token
is not the closing bracket), recursively scan one element; finally
consume the closing bracket. -/
def checkDupElems : Nat → List Tok → Except JErr (List Tok)
  | 0, _ => .error .tokenErr
  | fuel + 1, ts =>
    match ts with
    | [] => .error .tokenErr
    | .rbrack :: rest => .ok rest
    | _ :: _ =>
      match CheckDuplicate fuel ts with
      | .error e => .error e
      | .ok rest2 => checkDupElems fuel rest2
end

namespace GoList

/-- Indexing `s[index]` of a Go slice, `none` out of range. -/
def get? : GoList → Nat → Option GoVal
  | .nil, _ => none
  | .cons hd _, 0 => some hd
  | .cons _ tl, n + 1 => tl.get? n

/-- Writing `s[index] = v` in a Go slice (no effect out of range; the
source only writes at indices it has read). -/
def set : GoList → Nat → GoVal → GoList
  | .nil, _, _ => .nil
  | .cons _ tl, 0, v => .cons v tl
  | .cons hd tl, n + 1, v => .cons hd (tl.set n v)

/-- Length of a Go slice. -/
def length : GoList → Nat
  | .nil => 0
  | .cons _ tl => tl.length + 1

end GoList

/-- The duplicate-key fallback inside the source's `decode`: shift the
keys left from the first occurrence of the key (the `copy` leaves the
last slot stale) and overwrite the last slot with the key — net effect,
remove the first occurrence and re-append the key at the end.  When the
key does not occur (which cannot happen in the source: `hasKey[key]`
implies the key was appended earlier in this call) only the final
overwrite of the last slot happens. -/
def reposition (ks : List String) (key : String) : List String :=
  if key ∈ ks then ks.erase key ++ [key]
  else ks.dropLast ++ [key]

mutual
/-- The loop of the source's `decode`, with the local seen-set `hasKey`
made explicit (`decode` itself starts it empty).  Reads a token: stream
end is a token error; the closing brace ends the object, returning the
container and the rest of the stream; otherwise the token must be the
member key (the unchecked Go assertion `token.(string)` is modelled as a
type error).  A fresh key is recorded and appended to the key order; a
key already seen in this call is repositioned to the end.  Then the value
token is read: an opening brace promotes a plain-map value (or re-decodes
an ordered-map value) by recursing into a fresh container seeded with
that map and storing the finished ordered map back; with no map value the
recursion decodes into a discarded fresh container.  An opening bracket
recurses over the slice value in place (the Go code mutates the shared
backing array, modelled by storing the updated slice back); with no slice
value it decodes into a discarded empty slice.  Any other value token is
a scalar already produced by the generic pass, so nothing is stored. -/
def decodeLoop : Nat → List String → OrderedMap → List Tok → Except JErr (OrderedMap × List Tok)
  | 0, _, _, _ => .error .tokenErr
  | fuel + 1, seen, o, ts =>
    match ts with
    | [] => .error .tokenErr
    | .rbrace :: rest => .ok (o, rest)
    | .tstr key :: rest =>
      let seen' := if key ∈ seen then seen else key :: seen
      let keys' := if key ∈ seen then reposition o.keys key else o.keys ++ [key]
      match rest with
      | [] => .error .tokenErr
      | .lbrace :: rest2 =>
        match o.values.lookup key with
        | some (.gomap m) =>
          match decodeLoop fuel [] ⟨[], m⟩ rest2 with
          | .error e => .error e
          | .ok (nm, rest3) =>
            decodeLoop fuel seen' ⟨keys', o.values.insert key (.omap nm.keys nm.values)⟩ rest3
        | some (.omap _ om) =>
          match decodeLoop fuel [] ⟨[], om⟩ rest2 with
          | .error e => .error e
          | .ok (nm, rest3) =>
            decodeLoop fuel seen' ⟨keys', o.values.insert key (.omap nm.keys nm.values)⟩ rest3
        | _ =>
          match decodeLoop fuel [] ⟨[], .nil⟩ rest2 with
          | .error e => .error e
          | .ok (_, rest3) => decodeLoop fuel seen' ⟨keys', o.values⟩ rest3
      | .lbrack :: rest2 =>
        match o.values.lookup key with
        | some (.arr s) =>
          match decodeSliceLoop fuel 0 s rest2 with
          | .error e => .error e
          | .ok (s2, rest3) =>
            decodeLoop fuel seen' ⟨keys', o.values.insert key (.arr s2)⟩ rest3
        | _ =>
          match decodeSliceLoop fuel 0 .nil rest2 with
          | .error e => .error e
          | .ok (_, rest3) => decodeLoop fuel seen' ⟨keys', o.values⟩ rest3
      | _ :: rest2 => decodeLoop fuel seen' ⟨keys', o.values⟩ rest2
    | _ :: _ => .error .typeErr

/-- The loop of the source's `decodeSlice`, with the element index
explicit.  Reads a token per iteration: the closing bracket ends the
slice; an opening brace promotes an in-range plain-map or ordered-map
element exactly as in `decodeLoop` (out of range, or with a non-map
element, the recursion decodes into a discarded container); an opening
bracket recurses into an in-range slice element in place (otherwise into
a discarded empty slice); any other token is a scalar element the loop
body ignores, and the index advances every iteration. -/
def decodeSliceLoop : Nat → Nat → GoList → List Tok → Except JErr (GoList × List Tok)
  | 0, _, _, _ => .error .tokenErr
  | fuel + 1, index, s, ts =>
    match ts with
    | [] => .error .tokenErr
    | .rbrack :: rest => .ok (s, rest)
    | .lbrace :: rest =>
      match s.get? index with
      | some (.gomap m) =>
        match decodeLoop fuel [] ⟨[], m⟩ rest with
        | .error e => .error e
        | .ok (nm, rest2) =>
          decodeSliceLoop fuel (index + 1) (s.set index (.omap nm.keys nm.values)) rest2
      | some (.omap _ om) =>
        match decodeLoop fuel [] ⟨[], om⟩ rest with
        | .error e => .error e
        | .ok (nm, rest2) =>
          decodeSliceLoop fuel (index + 1) (s.set index (.omap nm.keys nm.values)) rest2
      | _ =>
        match decodeLoop fuel [] ⟨[], .nil⟩ rest with
        | .error e => .error e
        | .ok (_, rest2) => decodeSliceLoop fuel (index + 1) s rest2
    | .lbrack :: rest =>
      match s.get? index with
      | some (.arr xs) =>
        match decodeSliceLoop fuel 0 xs rest with
        | .error e => .error e
        | .ok (xs2, rest2) =>
          decodeSliceLoop fuel (index + 1) (s.set index (.arr xs2)) rest2
      | _ =>
        match decodeSliceLoop fuel 0 .nil rest with
        | .error e => .error e
        | .ok (_, rest2) => decodeSliceLoop fuel (index + 1) s rest2
    | _ :: rest => decodeSliceLoop fuel (index + 1) s rest
end

/-- The source's `decode`: run the member loop with a fresh `hasKey`
seen set. -/
def decode (fuel : Nat) (o : OrderedMap) (ts : List Tok) :
    Except JErr (OrderedMap × List Tok) :=
  decodeLoop fuel [] o ts

/-- The source's `decodeSlice`: run the element loop from index zero. -/
def decodeSlice (fuel : Nat) (s : GoList) (ts : List Tok) :
    Except JErr (GoList × List Tok) :=
  decodeSliceLoop fuel 0 s ts

mutual
/-- Modelled from the spec: the value tree Go's generic `json.Unmarshal`
pass produces for a document — native scalars, slices for arrays and
plain (unordered) maps for objects. -/
def jToGoFlat : J → GoVal
  | .null => .null
  | .boolean b => .boolean b
  | .number lit => .number lit
  | .str s => .str s
  | .arr xs => .arr (jListToGoFlat xs)
  | .obj ms => .gomap (mergeMembers .nil ms)

/-- Generic decoding of array elements. -/
def jListToGoFlat : JList → GoList
  | .nil => .nil
  | .cons hd tl => .cons (jToGoFlat hd) (jListToGoFlat tl)

/-- Modelled from the spec: generic decoding of an object's members into
an existing map — each member is inserted in document order, so a later
duplicate overwrites an earlier one (stdlib last-value-wins) and existing
entries of the map survive unless overwritten (the stdlib keeps existing
entries when unmarshalling into a non-empty map). -/
def mergeMembers : GoEntries → JMembers → GoEntries
  | m, .nil => m
  | m, .cons k v tl => mergeMembers (m.insert k (jToGoFlat v)) tl
end

/-- Modelled from the spec: `json.Unmarshal(b, &o.values)` of one
document into the container's map.  An object merges its members into the
existing map; JSON null sets the map itself to nil (stdlib: unmarshalling
null into a map stores the zero map), modelled as the empty map since the
model does not distinguish a nil from an empty Go map; any other document
is a type mismatch ("cannot unmarshal ... into map[string]any"), which
leaves the map untouched because the stdlib validates before decoding. -/
def jsonUnmarshalValues (input : J) (m : GoEntries) : Except JErr GoEntries :=
  match input with
  | .obj ms => .ok (mergeMembers m ms)
  | .null => .ok .nil
  | _ => .error .typeErr

/-- The source's `UnmarshalJSON` over a document's token stream, returning
the error-or-unit result together with the container state the call
leaves behind (the Go method mutates its receiver in place, so the state
on failure is observable).  Pass 1: `CheckDuplicate` on a fresh decoder —
on failure return the error with the container untouched (the nil-map
initialisation is invisible in the model, which does not distinguish nil
from empty maps).  Pass 2: generic `json.Unmarshal` into `o.values` — on
failure the container keeps its keys and map.  Pass 3: skip the first
token (the token streams of documents are never empty, so the skip cannot
fail), reset the key order to empty, and run `decode`; its result (or the
keys-cleared state, when it fails) is the final container. -/
def UnmarshalJSON (o : OrderedMap) (input : J) : Except JErr Unit × OrderedMap :=
  match CheckDuplicate (input.toToks.length + 1) input.toToks with
  | .error e => (.error e, o)
  | .ok _ =>
    match jsonUnmarshalValues input o.values with
    | .error e => (.error e, o)
    | .ok values2 =>
      match input.toToks with
      | [] => (.error .tokenErr, ⟨o.keys, values2⟩)
      | _ :: rest =>
        match decode (rest.length + 1) ⟨[], values2⟩ rest with
        | .error e => (.error e, ⟨[], values2⟩)
        | .ok (o3, _) => (.ok (), o3)

/-! ## Derived structural descriptions

The remaining definitions are not translations of source functions: they
are structural descriptions of documents and values (key lists, presence
of duplicate keys, the value tree each pass produces, well-formedness of
container values), introduced only to state and prove theorems about the
source functions above. -/

/-- Keys of an object's member list, in document order (duplicates kept). -/
def JMembers.keysList : JMembers → List String
  | .nil => []
  | .cons k _ tl => k :: tl.keysList

mutual
/-- First duplicate key the scanner encounters in a document, in scanner
order, or `none`; proven below to characterise `CheckDuplicate`. -/
def J.firstDup : J → Option String
  | .arr xs => xs.firstDup
  | .obj ms => ms.firstDup []
  | _ => none

/-- First duplicate key over array elements in order. -/
def JList.firstDup : JList → Option String
  | .nil => none
  | .cons hd tl =>
    match hd.firstDup with
    | some k => some k
    | none => tl.firstDup

/-- First duplicate key over object members, given the keys already seen
at this level: a key in the seen set is reported first, then duplicates
inside the member's value, then the rest of the members. -/
def JMembers.firstDup : JMembers → List String → Option String
  | .nil, _ => none
  | .cons k v tl, seen =>
    if k ∈ seen then some k
    else
      match v.firstDup with
      | some d => some d
      | none => tl.firstDup (k :: seen)
end

mutual
/-- A document is duplicate-free when every object in it, at any depth,
has pairwise distinct member keys. -/
def J.dupFree : J → Bool
  | .arr xs => xs.dupFree
  | .obj ms => decide ms.keysList.Nodup && ms.dupFree
  | _ => true

/-- All array elements duplicate-free. -/
def JList.dupFree : JList → Bool
  | .nil => true
  | .cons hd tl => hd.dupFree && tl.dupFree

/-- All member values duplicate-free (keys of this level are judged by
`J.dupFree` on the enclosing object). -/
def JMembers.dupFree : JMembers → Bool
  | .nil => true
  | .cons _ v tl => v.dupFree && tl.dupFree
end

mutual
/-- Some object inside the document (at any depth) mentions the key at
least twice among its members. -/
def J.hasDupKey : J → String → Bool
  | .arr xs, k => xs.hasDupKey k
  | .obj ms, k => decide (2 ≤ ms.keysList.count k) || ms.hasDupKey k
  | _, _ => false

/-- Some array element contains a duplicate of the key. -/
def JList.hasDupKey : JList → String → Bool
  | .nil, _ => false
  | .cons hd tl, k => hd.hasDupKey k || tl.hasDupKey k

/-- Some member value contains a duplicate of the key. -/
def JMembers.hasDupKey : JMembers → String → Bool
  | .nil, _ => false
  | .cons _ v tl, k => v.hasDupKey k || tl.hasDupKey k
end

/-- Concatenation of entry maps (a description device; Go maps are not
concatenated). -/
def GoEntries.append : GoEntries → GoEntries → GoEntries
  | .nil, b => b
  | .cons k v tl, b => .cons k v (tl.append b)

/-- Concatenation of slices. -/
def GoList.append : GoList → GoList → GoList
  | .nil, b => b
  | .cons hd tl, b => .cons hd (tl.append b)

/-- The entry map the generic pass produces for a member list with
distinct keys: each member in order, generically decoded. -/
def flatEntries : JMembers → GoEntries
  | .nil => .nil
  | .cons k v tl => .cons k (jToGoFlat v) (flatEntries tl)

mutual
/-- The value the whole decode (generic pass plus order recovery) is
expected to produce for a duplicate-free document: like the generic pass
but with every object promoted to an ordered map carrying its member
order. -/
def jToOrd : J → GoVal
  | .null => .null
  | .boolean b => .boolean b
  | .number lit => .number lit
  | .str s => .str s
  | .arr xs => .arr (jListToOrd xs)
  | .obj ms => .omap ms.keysList (ordEntries ms)

/-- Expected decode of array elements. -/
def jListToOrd : JList → GoList
  | .nil => .nil
  | .cons hd tl => .cons (jToOrd hd) (jListToOrd tl)

/-- Expected decode of object members: entries in member order with
promoted values. -/
def ordEntries : JMembers → GoEntries
  | .nil => .nil
  | .cons k v tl => .cons k (jToOrd v) (ordEntries tl)
end

mutual
/-- A value lies in the specification's closed value domain and is in the
canonical shape the container operations maintain: no raw `gomap` (those
exist only transiently inside decoding), and every ordered-map value has
its entry list aligned with its key order, with distinct keys and
canonical values. -/
def GoVal.canonical : GoVal → Bool
  | .null => true
  | .boolean _ => true
  | .number _ => true
  | .str _ => true
  | .arr xs => xs.canonical
  | .gomap _ => false
  | .omap ks m => decide (m.keysList = ks) && decide ks.Nodup && m.canonical

/-- All slice elements canonical. -/
def GoList.canonical : GoList → Bool
  | .nil => true
  | .cons hd tl => hd.canonical && tl.canonical

/-- All entry values canonical. -/
def GoEntries.canonical : GoEntries → Bool
  | .nil => true
  | .cons _ v tl => v.canonical && tl.canonical
end

/-- A container is canonical when its backing map is aligned with its key
order, the keys are distinct, and all values are canonical: the shape of
every container built from `New` by `Set` calls with canonical values. -/
def OrderedMap.canonical (o : OrderedMap) : Bool :=
  decide (o.values.keysList = o.keys) && decide o.keys.Nodup && o.values.canonical

/-- The membership invariant of the specification, decidably: the key
order and the key set of the backing map agree in membership, and no key
occurs twice in the key order. -/
def OrderedMap.invariantB (o : OrderedMap) : Bool :=
  o.keys.all (fun k => (o.values.lookup k).isSome)
    && o.values.keysList.all (fun k => decide (k ∈ o.keys))
    && decide o.keys.Nodup

/-- Apply a sequence of `Set` calls in order. -/
def setAll (o : OrderedMap) (ops : List (String × GoVal)) : OrderedMap :=
  ops.foldl (fun acc p => acc.Set p.1 p.2) o

/-- The containers reachable through the public interface, starting from
the `New` container: `Set`, `Delete`, `SortKeys` and `Sort` with sorting
functions that (as sorts do) permute what they are given, and
`UnmarshalJSON` on any document — including the container state a failed
unmarshal leaves behind, since the method mutates its receiver. -/
inductive Reach : OrderedMap → Prop where
  | new : Reach New
  | set (o : OrderedMap) (k : String) (v : GoVal) : Reach o → Reach (o.Set k v)
  | del (o : OrderedMap) (k : String) : Reach o → Reach (o.Delete k)
  | sortKeys (o : OrderedMap) (f : List String → List String) : Reach o →
      (f o.keys).Perm o.keys → Reach (o.SortKeys f)
  | sort (o : OrderedMap) (g : List (String × GoVal) → List (String × GoVal)) : Reach o →
      (g (o.keys.map fun k => (k, (o.values.lookup k).getD .null))).Perm
        (o.keys.map fun k => (k, (o.values.lookup k).getD .null)) →
      Reach (o.Sort g)
  | unmarshal (o : OrderedMap) (j : J) : Reach o → Reach (UnmarshalJSON o j).2

/-- Like `Reach`, but `UnmarshalJSON` is only ever applied to the fresh
`New` container (decoding into an already-populated container excluded). -/
inductive ReachFresh : OrderedMap → Prop where
  | new : ReachFresh New
  | set (o : OrderedMap) (k : String) (v : GoVal) : ReachFresh o → ReachFresh (o.Set k v)
  | del (o : OrderedMap) (k : String) : ReachFresh o → ReachFresh (o.Delete k)
  | sortKeys (o : OrderedMap) (f : List String → List String) : ReachFresh o →
      (f o.keys).Perm o.keys → ReachFresh (o.SortKeys f)
  | sort (o : OrderedMap) (g : List (String × GoVal) → List (String × GoVal)) : ReachFresh o →
      (g (o.keys.map fun k => (k, (o.values.lookup k).getD .null))).Perm
        (o.keys.map fun k => (k, (o.values.lookup k).getD .null)) →
      ReachFresh (o.Sort g)
  | unmarshal (j : J) : ReachFresh (UnmarshalJSON New j).2

/-! ## Entry-map and slice lemmas -/

namespace GoEntries

theorem lookup_insert_self : ∀ (m : GoEntries) (k : String) (v : GoVal),
    (m.insert k v).lookup k = some v
  | .nil, k, v => by simp [insert, lookup]
  | .cons k0 v0 tl, k, v => by
    by_cases h : k0 = k
    · simp [insert, lookup, h]
    · simp [insert, lookup, h, lookup_insert_self tl k v]

theorem lookup_insert_ne : ∀ (m : GoEntries) (k k' : String) (v : GoVal),
    k' ≠ k → (m.insert k v).lookup k' = m.lookup k'
  | .nil, k, k', v, h => by
    have hne : ¬(k = k') := fun hh => h hh.symm
    simp [insert, lookup, hne]
  | .cons k0 v0 tl, k, k', v, h => by
    by_cases h0 : k0 = k
    · subst h0
      have hne : ¬(k0 = k') := fun hh => h hh.symm
      simp [insert, lookup, hne]
    · simp only [insert, if_neg h0, lookup]
      by_cases h1 : k0 = k'
      · simp [h1]
      · simp [h1, lookup_insert_ne tl k k' v h]

theorem keysList_insert_mem : ∀ (m : GoEntries) (k : String) (v : GoVal),
    k ∈ m.keysList → (m.insert k v).keysList = m.keysList
  | .nil, k, v, h => by simp at h
  | .cons k0 v0 tl, k, v, h => by
    by_cases h0 : k0 = k
    · simp [insert, h0]
    · simp only [keysList_cons, List.mem_cons] at h
      rcases h with h | h

      · exact absurd h.symm h0
      · simp [insert, h0, keysList_insert_mem tl k v h]

theorem keysList_insert_fresh : ∀ (m : GoEntries) (k : String) (v : GoVal),
    k ∉ m.keysList → (m.insert k v).keysList = m.keysList ++ [k]
  | .nil, k, v, _ => by simp [insert]
  | .cons k0 v0 tl, k, v, h => by
    simp only [keysList_cons, List.mem_cons] at h
    push_neg at h
    have hne : ¬(k0 = k) := fun hh => h.1 hh.symm
    simp [insert, hne, keysList_insert_fresh tl k v h.2]

theorem lookup_none_iff : ∀ (m : GoEntries) (k : String),
    m.lookup k = none ↔ k ∉ m.keysList
  | .nil, k => by simp [lookup]
  | .cons k0 v0 tl, k => by
    by_cases h0 : k0 = k
    · simp [lookup, h0]
    · have hne : ¬(k = k0) := fun hh => h0 hh.symm
      simp [lookup, h0, lookup_none_iff tl k, hne]

theorem lookup_isSome_iff (m : GoEntries) (k : String) :
    (m.lookup k).isSome ↔ k ∈ m.keysList := by
  rcases h : m.lookup k with _ | v
  · simpa [h] using (lookup_none_iff m k).mp h
  · simp only [Option.isSome_some, true_iff]
    by_contra hk
    rw [← lookup_none_iff m k] at hk
    rw [h] at hk
    exact Option.noConfusion hk

theorem keysList_erase : ∀ (m : GoEntries) (k : String),
    (m.erase k).keysList = m.keysList.erase k
  | .nil, k => by simp [erase]
  | .cons k0 v0 tl, k => by
    by_cases h0 : k0 = k
    · simp [erase, h0, List.erase_cons_head]
    · rw [show (GoEntries.cons k0 v0 tl).keysList.erase k
          = k0 :: tl.keysList.erase k from List.erase_cons_tail (by simp [h0])]
      simp [erase, h0, keysList_erase tl k]

theorem lookup_erase_ne : ∀ (m : GoEntries) (k k' : String),
    k' ≠ k → (m.erase k).lookup k' = m.lookup k'
  | .nil, k, k', _ => by simp [erase]
  | .cons k0 v0 tl, k, k', h => by
    by_cases h0 : k0 = k
    · subst h0
      have hne : ¬(k0 = k') := fun hh => h hh.symm
      simp [erase, lookup, hne]
    · by_cases h1 : k0 = k'
      · simp [erase, lookup, h0, h1, h]
      · simp [erase, lookup, h0, h1, lookup_erase_ne tl k k' h]

theorem lookup_erase_self (m : GoEntries) (k : String) (h : m.keysList.Nodup) :
    (m.erase k).lookup k = none := by
  rw [lookup_none_iff, keysList_erase]
  intro hmem
  exact (List.Nodup.not_mem_erase h) hmem

@[simp] theorem append_nil : ∀ (m : GoEntries), m.append .nil = m
  | .nil => rfl
  | .cons k v tl => by simp [append, append_nil tl]

@[simp] theorem nil_append (m : GoEntries) : GoEntries.nil.append m = m := rfl

theorem append_assoc : ∀ (a b c : GoEntries), (a.append b).append c = a.append (b.append c)
  | .nil, _, _ => rfl
  | .cons k v tl, b, c => by simp [append, append_assoc tl b c]

@[simp] theorem keysList_append : ∀ (a b : GoEntries),
    (a.append b).keysList = a.keysList ++ b.keysList
  | .nil, _ => rfl
  | .cons k v tl, b => by simp [append, keysList_append tl b]

theorem lookup_append : ∀ (a b : GoEntries) (k : String),
    (a.append b).lookup k = match a.lookup k with
      | some v => some v
      | none => b.lookup k
  | .nil, b, k => by simp [append, lookup]
  | .cons k0 v0 tl, b, k => by
    by_cases h0 : k0 = k
    · simp [append, lookup, h0]
    · simp only [append, lookup, if_neg h0]
      exact lookup_append tl b k

theorem lookup_append_none (a b : GoEntries) (k : String) (h : a.lookup k = none) :
    (a.append b).lookup k = b.lookup k := by
  rw [lookup_append, h]

theorem insert_append_head : ∀ (a tl : GoEntries) (k : String) (v w : GoVal),
    a.lookup k = none → (a.append (.cons k v tl)).insert k w = a.append (.cons k w tl)
  | .nil, tl, k, v, w, _ => by simp [append, insert]
  | .cons k0 v0 tl0, tl, k, v, w, h => by
    by_cases h0 : k0 = k
    · simp [lookup, h0] at h
    · simp only [lookup, if_neg h0] at h
      simp only [append, insert, if_neg h0]
      rw [insert_append_head tl0 tl k v w h]

theorem insert_fresh_eq_append : ∀ (m : GoEntries) (k : String) (v : GoVal),
    k ∉ m.keysList → m.insert k v = m.append (.cons k v .nil)
  | .nil, k, v, _ => rfl
  | .cons k0 v0 tl, k, v, h => by
    simp only [keysList_cons, List.mem_cons] at h
    push_neg at h
    have hne : ¬(k0 = k) := fun hh => h.1 hh.symm
    simp [insert, append, hne, insert_fresh_eq_append tl k v h.2]

theorem canonical_cons (k : String) (v : GoVal) (tl : GoEntries) :
    (GoEntries.cons k v tl).canonical = (v.canonical && tl.canonical) := by
  rfl

end GoEntries

namespace GoList

@[simp] theorem appendNil : ∀ (s : GoList), s.append .nil = s
  | .nil => rfl
  | .cons hd tl => by simp [append, appendNil tl]

@[simp] theorem nilAppend (s : GoList) : GoList.nil.append s = s := rfl

theorem length_append : ∀ (a b : GoList), (a.append b).length = a.length + b.length
  | .nil, b => by simp [append, length]
  | .cons hd tl, b => by simp [append, length, length_append tl b]; omega

theorem get?_append_length : ∀ (pre : GoList) (a : GoVal) (tl : GoList),
    (pre.append (.cons a tl)).get? pre.length = some a
  | .nil, a, tl => by simp [append, length, get?]
  | .cons hd pretl, a, tl => by
    simp [append, length, get?, get?_append_length pretl a tl]

theorem set_append_length : ∀ (pre : GoList) (a : GoVal) (tl : GoList) (v : GoVal),
    (pre.append (.cons a tl)).set pre.length v = pre.append (.cons v tl)
  | .nil, a, tl, v => by simp [append, length, set]
  | .cons hd pretl, a, tl, v => by
    simp [append, length, set, set_append_length pretl a tl v]

end GoList

/-! ## Scanner correspondence -/

/-- The scanner outcome determined by the first duplicate (error on the
key, success handing back the remaining stream). -/
def dupResult (r : Option String) (rest : List Tok) : Except JErr (List Tok) :=
  match r with
  | none => .ok rest
  | some k => .error (.dup k)

theorem J.toToks_head (j : J) :
    ∃ t ts', j.toToks = t :: ts' ∧ t ≠ Tok.rbrace ∧ t ≠ Tok.rbrack := by
  cases j with
  | null => exact ⟨.tnull, [], rfl, by simp, by simp⟩
  | boolean b => exact ⟨.tbool b, [], rfl, by simp, by simp⟩
  | number lit => exact ⟨.tnum lit, [], rfl, by simp, by simp⟩
  | str s => exact ⟨.tstr s, [], rfl, by simp, by simp⟩
  | arr xs => exact ⟨.lbrack, xs.toToks ++ [.rbrack], by simp [J.toToks], by simp, by simp⟩
  | obj ms => exact ⟨.lbrace, ms.toToks ++ [.rbrace], by simp [J.toToks], by simp, by simp⟩

theorem J.toToks_length_pos (j : J) : 0 < j.toToks.length := by
  obtain ⟨t, ts', h, -, -⟩ := j.toToks_head
  simp [h]

/-- One unfolding step of the element loop on a non-bracket head token. -/
theorem checkDupElems_step (f : Nat) (t : Tok) (ts : List Tok) (h : t ≠ Tok.rbrack) :
    checkDupElems (f + 1) (t :: ts) =
      match CheckDuplicate f (t :: ts) with
      | .error e => .error e
      | .ok rest2 => checkDupElems f rest2 := by
  cases t <;> simp_all [checkDupElems]

/-- The scanner computes the first duplicate: `CheckDuplicate` on the
token stream of a document (followed by anything) succeeds, handing back
the rest of the stream, exactly when the document has no duplicate key,
and otherwise fails with a duplicate error naming the first duplicate in
scanner order; `checkDupMembers` and `checkDupElems` do the same for
member and element lists.  The fuel hypotheses are satisfied by the fuel
`UnmarshalJSON` supplies. -/
theorem scanner_correct : ∀ fuel : Nat,
    (∀ (j : J) (rest : List Tok), j.toToks.length ≤ fuel →
      CheckDuplicate fuel (j.toToks ++ rest) = dupResult j.firstDup rest)
    ∧ (∀ (ms : JMembers) (seen : List String) (rest : List Tok), ms.toToks.length < fuel →
      checkDupMembers fuel seen (ms.toToks ++ .rbrace :: rest) = dupResult (ms.firstDup seen) rest)
    ∧ (∀ (xs : JList) (rest : List Tok), xs.toToks.length < fuel →
      checkDupElems fuel (xs.toToks ++ .rbrack :: rest) = dupResult xs.firstDup rest) := by
  intro fuel
  induction fuel with
  | zero =>
    refine ⟨fun j rest hlen => ?_, fun ms seen rest hlen => ?_, fun xs rest hlen => ?_⟩
    · have := j.toToks_length_pos
      omega
    · omega
    · omega
  | succ f ih =>
    obtain ⟨ihV, ihM, ihE⟩ := ih
    refine ⟨fun j rest hlen => ?_, fun ms seen rest hlen => ?_, fun xs rest hlen => ?_⟩
    · cases j with
      | null => simp [J.toToks, CheckDuplicate, J.firstDup, dupResult]
      | boolean b => simp [J.toToks, CheckDuplicate, J.firstDup, dupResult]
      | number lit => simp [J.toToks, CheckDuplicate, J.firstDup, dupResult]
      | str s => simp [J.toToks, CheckDuplicate, J.firstDup, dupResult]
      | arr xs =>
        simp only [J.toToks, List.length_cons, List.length_append, List.length_singleton] at hlen
        simp only [J.toToks, List.cons_append, List.append_assoc, List.singleton_append,
          CheckDuplicate, J.firstDup]
        exact ihE xs rest (by omega)
      | obj ms =>
        simp only [J.toToks, List.length_cons, List.length_append, List.length_singleton] at hlen
        simp only [J.toToks, List.cons_append, List.append_assoc, List.singleton_append,
          CheckDuplicate, J.firstDup]
        exact ihM ms [] rest (by omega)
    · cases ms with
      | nil => simp [JMembers.toToks, checkDupMembers, JMembers.firstDup, dupResult]
      | cons k v tl =>
        simp only [JMembers.toToks, List.length_cons, List.length_append] at hlen
        have hvpos := v.toToks_length_pos
        simp only [JMembers.toToks, List.cons_append, List.append_assoc, checkDupMembers]
        by_cases hseen : k ∈ seen
        · simp [hseen, JMembers.firstDup, dupResult]
        · simp only [hseen, if_false]
          rw [ihV v (tl.toToks ++ .rbrace :: rest) (by omega)]
          cases hv : v.firstDup with
          | some d => simp [dupResult, JMembers.firstDup, hseen, hv]
          | none =>
            simp only [dupResult]
            rw [ihM tl (k :: seen) rest (by omega)]
            simp only [JMembers.firstDup, hseen, if_neg, hv]
            cases tl.firstDup (k :: seen) <;> simp [dupResult]
    · cases xs with
      | nil => simp [JList.toToks, checkDupElems, JList.firstDup, dupResult]
      | cons x tl =>
        simp only [JList.toToks, List.length_append] at hlen
        have hxpos := x.toToks_length_pos
        obtain ⟨t, ts', hx, ht1, ht2⟩ := x.toToks_head
        have hsplit : JList.toToks (.cons x tl) ++ Tok.rbrack :: rest
            = t :: (ts' ++ (tl.toToks ++ Tok.rbrack :: rest)) := by
          simp [JList.toToks, hx]
        rw [hsplit, checkDupElems_step f t _ ht2,
          show t :: (ts' ++ (tl.toToks ++ Tok.rbrack :: rest))
            = x.toToks ++ (tl.toToks ++ Tok.rbrack :: rest) by simp [hx]]
        rw [ihV x (tl.toToks ++ .rbrack :: rest) (by omega)]
        cases hxd : x.firstDup with
        | some d => simp [dupResult, JList.firstDup, hxd]
        | none =>
          simp only [dupResult]
          rw [ihE tl rest (by omega)]
          simp only [JList.firstDup, hxd]
          cases tl.firstDup <;> simp [dupResult]

mutual
/-- A document yields no first duplicate exactly when it is
duplicate-free. -/
theorem firstDup_none_iff_dupFree : ∀ (j : J), j.firstDup = none ↔ j.dupFree = true
  | .null => by simp [J.firstDup, J.dupFree]
  | .boolean b => by simp [J.firstDup, J.dupFree]
  | .number lit => by simp [J.firstDup, J.dupFree]
  | .str s => by simp [J.firstDup, J.dupFree]
  | .arr xs => by
    simp only [J.firstDup, J.dupFree]
    exact firstDup_none_iff_dupFree_list xs
  | .obj ms => by
    simp only [J.firstDup, J.dupFree, Bool.and_eq_true, decide_eq_true_eq]
    rw [firstDup_none_iff_dupFree_members ms []]
    simp

/-- Element lists yield no first duplicate exactly when all elements are
duplicate-free. -/
theorem firstDup_none_iff_dupFree_list : ∀ (xs : JList), xs.firstDup = none ↔ xs.dupFree = true
  | .nil => by simp [JList.firstDup, JList.dupFree]
  | .cons x tl => by
    simp only [JList.firstDup, JList.dupFree, Bool.and_eq_true]
    cases hx : x.firstDup with
    | some d =>
      simp only [reduceCtorEq, false_iff, not_and]
      intro hxd
      have := (firstDup_none_iff_dupFree x).mpr hxd
      rw [hx] at this
      exact absurd this (by simp)
    | none =>
      have hxd := (firstDup_none_iff_dupFree x).mp hx
      simp [hxd, firstDup_none_iff_dupFree_list tl]

/-- Member lists yield no first duplicate, relative to a seen set, exactly
when the member keys are distinct, avoid the seen set, and all member
values are duplicate-free. -/
theorem firstDup_none_iff_dupFree_members : ∀ (ms : JMembers) (seen : List String),
    ms.firstDup seen = none ↔
      (ms.keysList.Nodup ∧ (∀ k ∈ ms.keysList, k ∉ seen) ∧ ms.dupFree = true)
  | .nil, seen => by simp [JMembers.firstDup, JMembers.keysList, JMembers.dupFree]
  | .cons k0 v tl, seen => by
    simp only [JMembers.firstDup, JMembers.keysList, JMembers.dupFree]
    by_cases hseen : k0 ∈ seen
    · simp only [hseen, if_true, reduceCtorEq, false_iff, not_and]
      intro _ h
      exact absurd hseen (h k0 (by simp))
    · simp only [hseen, if_neg, ite_false]
      cases hv : v.firstDup with
      | some d =>
        simp only [reduceCtorEq, false_iff, not_and]
        intro _ _ hdf
        rw [Bool.and_eq_true] at hdf
        have := (firstDup_none_iff_dupFree v).mpr hdf.1
        rw [hv] at this
        exact absurd this (by simp)
      | none =>
        rw [firstDup_none_iff_dupFree_members tl (k0 :: seen)]
        have hvd := (firstDup_none_iff_dupFree v).mp hv
        simp only [List.nodup_cons, Bool.and_eq_true, hvd, true_and, List.mem_cons]
        constructor
        · rintro ⟨hnod, hfresh, hdf⟩
          refine ⟨⟨fun hmem => (hfresh _ hmem (Or.inl rfl)).elim, hnod⟩, ?_, hdf⟩
          rintro k (rfl | hk)
          · exact hseen
          · intro hks
            exact hfresh k hk (Or.inr hks)
        · rintro ⟨⟨hk0, hnod⟩, hfresh, hdf⟩
          refine ⟨hnod, ?_, hdf⟩
          intro k hk hk'
          rcases hk' with rfl | hk'
          · exact hk0 hk
          · exact hfresh k (Or.inr hk) hk'
end

mutual
/-- The key the scanner reports is really duplicated somewhere in the
document. -/
theorem firstDup_some_hasDup : ∀ (j : J) (k : String),
    j.firstDup = some k → j.hasDupKey k = true
  | .null, k, h => by simp [J.firstDup] at h
  | .boolean b, k, h => by simp [J.firstDup] at h
  | .number lit, k, h => by simp [J.firstDup] at h
  | .str s, k, h => by simp [J.firstDup] at h
  | .arr xs, k, h => by
    simp only [J.firstDup] at h
    simp only [J.hasDupKey]
    exact firstDup_some_hasDup_list xs k h
  | .obj ms, k, h => by
    simp only [J.firstDup] at h
    rcases firstDup_some_hasDup_members ms [] k h with ⟨hin, _⟩ | hcnt | hdup
    · simp at hin
    · simp [J.hasDupKey, hcnt]
    · simp [J.hasDupKey, hdup]

/-- Same fact for array element lists. -/
theorem firstDup_some_hasDup_list : ∀ (xs : JList) (k : String),
    xs.firstDup = some k → xs.hasDupKey k = true
  | .nil, k, h => by simp [JList.firstDup] at h
  | .cons x tl, k, h => by
    simp only [JList.firstDup] at h
    simp only [JList.hasDupKey, Bool.or_eq_true]
    cases hx : x.firstDup with
    | some d =>
      rw [hx] at h
      cases h
      exact Or.inl (firstDup_some_hasDup x k hx)
    | none =>
      rw [hx] at h
      exact Or.inr (firstDup_some_hasDup_list tl k h)

/-- For member lists: the reported key was either already in the seen set
and occurs among the members, or occurs at least twice among the member
keys, or is duplicated inside one of the member values. -/
theorem firstDup_some_hasDup_members : ∀ (ms : JMembers) (seen : List String) (k : String),
    ms.firstDup seen = some k →
      (k ∈ seen ∧ k ∈ ms.keysList) ∨ 2 ≤ ms.keysList.count k ∨ ms.hasDupKey k = true
  | .nil, seen, k, h => by simp [JMembers.firstDup] at h
  | .cons k0 v tl, seen, k, h => by
    simp only [JMembers.firstDup] at h
    by_cases hseen : k0 ∈ seen
    · rw [if_pos hseen] at h
      cases h
      exact Or.inl ⟨hseen, by simp [JMembers.keysList]⟩
    · rw [if_neg hseen] at h
      cases hv : v.firstDup with
      | some d =>
        rw [hv] at h
        cases h
        refine Or.inr (Or.inr ?_)
        simp [JMembers.hasDupKey, firstDup_some_hasDup v k hv]
      | none =>
        rw [hv] at h
        rcases firstDup_some_hasDup_members tl (k0 :: seen) k h with ⟨hin, hmem⟩ | hcnt | hdup
        · rcases List.mem_cons.mp hin with rfl | hin'
          · refine Or.inr (Or.inl ?_)
            have : 1 ≤ tl.keysList.count k := List.count_pos_iff.mpr hmem
            simp only [JMembers.keysList, List.count_cons_self]
            omega
          · exact Or.inl ⟨hin', by simp [JMembers.keysList, hmem]⟩
        · refine Or.inr (Or.inl ?_)
          simp only [JMembers.keysList]
          rw [List.count_cons]
          omega
        · refine Or.inr (Or.inr ?_)
          simp [JMembers.hasDupKey, hdup]
end

/-! ## Decode correspondence -/

theorem GoList.appendAssoc : ∀ (a b c : GoList),
    (a.append b).append c = a.append (b.append c)
  | .nil, _, _ => rfl
  | .cons hd tl, b, c => by simp [GoList.append, GoList.appendAssoc tl b c]

@[simp] theorem GoList.length_nil : GoList.nil.length = 0 := rfl

@[simp] theorem GoList.length_cons (hd : GoVal) (tl : GoList) :
    (GoList.cons hd tl).length = tl.length + 1 := rfl

@[simp] theorem JMembers.keysListNil : JMembers.nil.keysList = [] := rfl

@[simp] theorem JMembers.keysListCons (k : String) (v : J) (tl : JMembers) :
    (JMembers.cons k v tl).keysList = k :: tl.keysList := rfl

@[simp] theorem keysList_flatEntries : ∀ (ms : JMembers),
    (flatEntries ms).keysList = ms.keysList
  | .nil => rfl
  | .cons k v tl => by simp [flatEntries, keysList_flatEntries tl]

@[simp] theorem keysList_ordEntries : ∀ (ms : JMembers),
    (ordEntries ms).keysList = ms.keysList
  | .nil => rfl
  | .cons k v tl => by simp [ordEntries, keysList_ordEntries tl]

/-- When the members' keys are distinct and absent from the target map,
the generic merge simply appends the generically decoded entries. -/
theorem mergeMembers_fresh : ∀ (ms : JMembers) (m : GoEntries),
    ms.keysList.Nodup → (∀ k ∈ ms.keysList, k ∉ m.keysList) →
    mergeMembers m ms = m.append (flatEntries ms)
  | .nil, m, _, _ => by simp [mergeMembers, flatEntries]
  | .cons k v tl, m, hnod, hfresh => by
    simp only [JMembers.keysListCons, List.nodup_cons] at hnod
    simp only [mergeMembers, flatEntries]
    rw [GoEntries.insert_fresh_eq_append m k _ (hfresh k (by simp))]
    rw [mergeMembers_fresh tl _ hnod.2 ?hfresh]
    case hfresh =>
      intro k' hk'
      simp only [GoEntries.keysList_append, GoEntries.keysList_cons, GoEntries.keysList_nil,
        List.mem_append, List.mem_cons]
      rintro (hm | hkk)
      · exact hfresh k' (by simp [hk']) hm
      · rcases hkk with rfl | hfalse
        · exact hnod.1 hk'
        · simp at hfalse
    rw [GoEntries.append_assoc]
    rfl

/-- The order-recovery pass on a duplicate-free object recovers the member
order and promotes the generically decoded values, leaving anything
before it in the container alone: running `decodeLoop` over the members'
tokens with the generically decoded entries in place turns them into the
promoted entries and appends the member keys to the key order; the slice
loop does the same for array elements.  This is the induction engine for
the round-trip and unmarshal theorems; the fuel hypothesis is met by the
fuel `UnmarshalJSON` supplies. -/
theorem decode_correct : ∀ fuel : Nat,
    (∀ (ms : JMembers) (seen ks0 : List String) (A : GoEntries) (rest : List Tok),
      ms.dupFree = true → ms.keysList.Nodup →
      (∀ k ∈ ms.keysList, k ∉ seen) →
      (∀ k ∈ ms.keysList, A.lookup k = none) →
      ms.toToks.length < fuel →
      decodeLoop fuel seen ⟨ks0, A.append (flatEntries ms)⟩ (ms.toToks ++ .rbrace :: rest)
        = .ok (⟨ks0 ++ ms.keysList, A.append (ordEntries ms)⟩, rest))
    ∧ (∀ (xs : JList) (pre : GoList) (rest : List Tok),
      xs.dupFree = true →
      xs.toToks.length < fuel →
      decodeSliceLoop fuel pre.length (pre.append (jListToGoFlat xs)) (xs.toToks ++ .rbrack :: rest)
        = .ok (pre.append (jListToOrd xs), rest)) := by
  intro fuel
  induction fuel with
  | zero =>
    exact ⟨fun ms _ _ _ _ _ _ _ _ h => by omega, fun xs _ _ _ h => by omega⟩
  | succ f ih =>
    obtain ⟨ihP, ihQ⟩ := ih
    constructor
    · intro ms seen ks0 A rest hdf hnod hseen hA hlen
      cases ms with
      | nil =>
        simp [JMembers.toToks, decodeLoop, flatEntries, ordEntries]
      | cons k v tl =>
        simp only [JMembers.toToks, List.length_cons, List.length_append] at hlen
        have hvpos := v.toToks_length_pos
        simp only [JMembers.dupFree, Bool.and_eq_true] at hdf
        simp only [JMembers.keysListCons, List.nodup_cons] at hnod
        have hkA : A.lookup k = none := hA k (by simp)
        have hkseen : k ∉ seen := hseen k (by simp)
        -- the continuation: after the member's value is handled and the
        -- entry holds w, the rest of the members decode by the inductive
        -- hypothesis
        have hcont : ∀ w : GoVal,
            decodeLoop f (k :: seen) ⟨ks0 ++ [k], A.append (.cons k w (flatEntries tl))⟩
              (tl.toToks ++ .rbrace :: rest)
            = .ok (⟨ks0 ++ k :: tl.keysList, A.append (.cons k w (ordEntries tl))⟩, rest) := by
          intro w
          have hA' : ∀ k' ∈ tl.keysList, (A.append (.cons k w .nil)).lookup k' = none := by
            intro k' hk'
            rw [GoEntries.lookup_append_none _ _ _ (hA k' (by simp [hk']))]
            have : ¬(k = k') := fun hh => hnod.1 (hh ▸ hk')
            simp [GoEntries.lookup, this]
          have hseen' : ∀ k' ∈ tl.keysList, k' ∉ k :: seen := by
            intro k' hk'
            simp only [List.mem_cons, not_or]
            exact ⟨fun hh => hnod.1 (hh ▸ hk'), hseen k' (by simp [hk'])⟩
          have := ihP tl (k :: seen) (ks0 ++ [k]) (A.append (.cons k w .nil)) rest
            hdf.2 hnod.2 hseen' hA' (by omega)
          rw [GoEntries.append_assoc] at this
          simp only [GoEntries.append] at this
          rw [GoEntries.append_assoc] at this
          simp only [GoEntries.append] at this
          simpa using this
        -- read the key token
        have hfresh : (k ∈ seen) = False := by simp [hkseen]
        have hlookup : (A.append (flatEntries (.cons k v tl))).lookup k
            = some (jToGoFlat v) := by
          rw [flatEntries, GoEntries.lookup_append_none _ _ _ hkA]
          simp [GoEntries.lookup]
        cases v with
        | null =>
          have htoks : (JMembers.cons k J.null tl).toToks ++ Tok.rbrace :: rest
              = Tok.tstr k :: Tok.tnull :: (tl.toToks ++ Tok.rbrace :: rest) := by
            simp [JMembers.toToks, J.toToks]
          rw [htoks]
          simp only [decodeLoop, hfresh, if_false]
          rw [flatEntries]
          simpa [ordEntries, jToOrd] using hcont .null
        | boolean b =>
          have htoks : (JMembers.cons k (J.boolean b) tl).toToks ++ Tok.rbrace :: rest
              = Tok.tstr k :: Tok.tbool b :: (tl.toToks ++ Tok.rbrace :: rest) := by
            simp [JMembers.toToks, J.toToks]
          rw [htoks]
          simp only [decodeLoop, hfresh, if_false]
          rw [flatEntries]
          simpa [ordEntries, jToOrd] using hcont (.boolean b)
        | number lit =>
          have htoks : (JMembers.cons k (J.number lit) tl).toToks ++ Tok.rbrace :: rest
              = Tok.tstr k :: Tok.tnum lit :: (tl.toToks ++ Tok.rbrace :: rest) := by
            simp [JMembers.toToks, J.toToks]
          rw [htoks]
          simp only [decodeLoop, hfresh, if_false]
          rw [flatEntries]
          simpa [ordEntries, jToOrd] using hcont (.number lit)
        | str s =>
          have htoks : (JMembers.cons k (J.str s) tl).toToks ++ Tok.rbrace :: rest
              = Tok.tstr k :: Tok.tstr s :: (tl.toToks ++ Tok.rbrace :: rest) := by
            simp [JMembers.toToks, J.toToks]
          rw [htoks]
          simp only [decodeLoop, hfresh, if_false]
          rw [flatEntries]
          simpa [ordEntries, jToOrd] using hcont (.str s)
        | obj msv =>
          simp only [J.dupFree, Bool.and_eq_true, decide_eq_true_eq] at hdf
          simp only [J.toToks, List.length_cons, List.length_append,
            List.length_singleton] at hlen hvpos
          have hinner := ihP msv [] [] .nil (tl.toToks ++ .rbrace :: rest)
            hdf.1.2 hdf.1.1 (by simp) (by simp) (by omega)
          simp only [GoEntries.nil_append, List.nil_append] at hinner
          have hflat : jToGoFlat (.obj msv) = .gomap (flatEntries msv) := by
            rw [jToGoFlat, mergeMembers_fresh msv .nil hdf.1.1 (by simp)]
            rfl
          rw [hflat] at hlookup
          have htoks : (JMembers.cons k (J.obj msv) tl).toToks ++ Tok.rbrace :: rest
              = Tok.tstr k :: Tok.lbrace
                  :: (msv.toToks ++ Tok.rbrace :: (tl.toToks ++ Tok.rbrace :: rest)) := by
            simp [JMembers.toToks, J.toToks]
          rw [htoks]
          simp only [decodeLoop, hfresh, if_false, hlookup, hinner]
          rw [flatEntries, GoEntries.insert_append_head A _ k _ _ hkA]
          simpa [ordEntries, jToOrd] using hcont (.omap msv.keysList (ordEntries msv))
        | arr xsv =>
          simp only [J.dupFree] at hdf
          simp only [J.toToks, List.length_cons, List.length_append,
            List.length_singleton] at hlen hvpos
          have hinner := ihQ xsv .nil (tl.toToks ++ .rbrace :: rest) hdf.1 (by omega)
          simp only [GoList.nilAppend, GoList.length_nil] at hinner
          have hflat : jToGoFlat (.arr xsv) = .arr (jListToGoFlat xsv) := rfl
          rw [hflat] at hlookup
          have htoks : (JMembers.cons k (J.arr xsv) tl).toToks ++ Tok.rbrace :: rest
              = Tok.tstr k :: Tok.lbrack
                  :: (xsv.toToks ++ Tok.rbrack :: (tl.toToks ++ Tok.rbrace :: rest)) := by
            simp [JMembers.toToks, J.toToks]
          rw [htoks]
          simp only [decodeLoop, hfresh, if_false, hlookup, hinner]
          rw [flatEntries, GoEntries.insert_append_head A _ k _ _ hkA]
          simpa [ordEntries, jToOrd] using hcont (.arr (jListToOrd xsv))
    · intro xs pre rest hdf hlen
      cases xs with
      | nil =>
        simp [JList.toToks, decodeSliceLoop, jListToGoFlat, jListToOrd]
      | cons x tlx =>
        simp only [JList.toToks, List.length_append] at hlen
        have hxpos := x.toToks_length_pos
        simp only [JList.dupFree, Bool.and_eq_true] at hdf
        have hcontQ : ∀ w : GoVal,
            decodeSliceLoop f (pre.length + 1) (pre.append (.cons w (jListToGoFlat tlx)))
              (tlx.toToks ++ .rbrack :: rest)
            = .ok (pre.append (.cons w (jListToOrd tlx)), rest) := by
          intro w
          have := ihQ tlx (pre.append (.cons w .nil)) rest hdf.2 (by omega)
          rw [GoList.appendAssoc] at this
          simp only [GoList.append] at this
          rw [GoList.appendAssoc] at this
          simp only [GoList.append] at this
          simpa [GoList.length_append] using this
        cases x with
        | null =>
          have htoks : (JList.cons J.null tlx).toToks ++ Tok.rbrack :: rest
              = Tok.tnull :: (tlx.toToks ++ Tok.rbrack :: rest) := by
            simp [JList.toToks, J.toToks]
          rw [htoks, jListToGoFlat]
          simp only [decodeSliceLoop]
          simpa [jListToOrd, jToOrd, jToGoFlat] using hcontQ .null
        | boolean b =>
          have htoks : (JList.cons (J.boolean b) tlx).toToks ++ Tok.rbrack :: rest
              = Tok.tbool b :: (tlx.toToks ++ Tok.rbrack :: rest) := by
            simp [JList.toToks, J.toToks]
          rw [htoks, jListToGoFlat]
          simp only [decodeSliceLoop]
          simpa [jListToOrd, jToOrd, jToGoFlat] using hcontQ (.boolean b)
        | number lit =>
          have htoks : (JList.cons (J.number lit) tlx).toToks ++ Tok.rbrack :: rest
              = Tok.tnum lit :: (tlx.toToks ++ Tok.rbrack :: rest) := by
            simp [JList.toToks, J.toToks]
          rw [htoks, jListToGoFlat]
          simp only [decodeSliceLoop]
          simpa [jListToOrd, jToOrd, jToGoFlat] using hcontQ (.number lit)
        | str s =>
          have htoks : (JList.cons (J.str s) tlx).toToks ++ Tok.rbrack :: rest
              = Tok.tstr s :: (tlx.toToks ++ Tok.rbrack :: rest) := by
            simp [JList.toToks, J.toToks]
          rw [htoks, jListToGoFlat]
          simp only [decodeSliceLoop]
          simpa [jListToOrd, jToOrd, jToGoFlat] using hcontQ (.str s)
        | obj msx =>
          simp only [J.dupFree, Bool.and_eq_true, decide_eq_true_eq] at hdf
          simp only [J.toToks, List.length_cons, List.length_append,
            List.length_singleton] at hlen hxpos
          have hinner := ihP msx [] [] .nil (tlx.toToks ++ .rbrack :: rest)
            hdf.1.2 hdf.1.1 (by simp) (by simp) (by omega)
          simp only [GoEntries.nil_append, List.nil_append] at hinner
          have hflat : jToGoFlat (.obj msx) = .gomap (flatEntries msx) := by
            rw [jToGoFlat, mergeMembers_fresh msx .nil hdf.1.1 (by simp)]
            rfl
          have hget : (pre.append (jListToGoFlat (.cons (.obj msx) tlx))).get? pre.length
              = some (.gomap (flatEntries msx)) := by
            rw [jListToGoFlat, hflat]
            exact GoList.get?_append_length pre _ _
          have hset : (pre.append (jListToGoFlat (.cons (.obj msx) tlx))).set pre.length
              (.omap msx.keysList (ordEntries msx))
              = pre.append (.cons (.omap msx.keysList (ordEntries msx)) (jListToGoFlat tlx)) := by
            rw [jListToGoFlat, hflat]
            exact GoList.set_append_length pre _ _ _
          have htoks : (JList.cons (J.obj msx) tlx).toToks ++ Tok.rbrack :: rest
              = Tok.lbrace
                  :: (msx.toToks ++ Tok.rbrace :: (tlx.toToks ++ Tok.rbrack :: rest)) := by
            simp [JList.toToks, J.toToks]
          rw [htoks]
          simp only [decodeSliceLoop, hget, hinner, hset]
          simpa [jListToOrd, jToOrd] using hcontQ (.omap msx.keysList (ordEntries msx))
        | arr xsx =>
          simp only [J.dupFree] at hdf
          simp only [J.toToks, List.length_cons, List.length_append,
            List.length_singleton] at hlen hxpos
          have hinner := ihQ xsx .nil (tlx.toToks ++ .rbrack :: rest) hdf.1 (by omega)
          simp only [GoList.nilAppend, GoList.length_nil] at hinner
          have hget : (pre.append (jListToGoFlat (.cons (.arr xsx) tlx))).get? pre.length
              = some (.arr (jListToGoFlat xsx)) := by
            rw [jListToGoFlat]
            exact GoList.get?_append_length pre _ _
          have hset : (pre.append (jListToGoFlat (.cons (.arr xsx) tlx))).set pre.length
              (.arr (jListToOrd xsx))
              = pre.append (.cons (.arr (jListToOrd xsx)) (jListToGoFlat tlx)) := by
            rw [jListToGoFlat]
            exact GoList.set_append_length pre _ _ _
          have htoks : (JList.cons (J.arr xsx) tlx).toToks ++ Tok.rbrack :: rest
              = Tok.lbrack
                  :: (xsx.toToks ++ Tok.rbrack :: (tlx.toToks ++ Tok.rbrack :: rest)) := by
            simp [JList.toToks, J.toToks]
          rw [htoks]
          simp only [decodeSliceLoop, hget, hinner, hset]
          simpa [jListToOrd, jToOrd] using hcontQ (.arr (jListToOrd xsx))

/-! ## Marshal-side lemmas -/

theorem govFieldsToJ_nil (m : GoEntries) : govFieldsToJ [] m = .nil := by
  rw [govFieldsToJ]

theorem govFieldsToJ_cons (k : String) (ks : List String) (m : GoEntries) :
    govFieldsToJ (k :: ks) m
      = .cons k
          (match m.lookup k with
            | some v => govToJ v
            | none => J.null)
          (govFieldsToJ ks m) := by
  rw [govFieldsToJ]
  cases hlk : m.lookup k <;> simp [hlk]

@[simp] theorem keysList_govFieldsToJ : ∀ (ks : List String) (m : GoEntries),
    (govFieldsToJ ks m).keysList = ks
  | [], m => by rw [govFieldsToJ_nil]; rfl
  | k :: ks, m => by
    rw [govFieldsToJ_cons]
    simp [keysList_govFieldsToJ ks m]

/-- Iterating keys that never mention the head entry skips it. -/
theorem govFieldsToJ_skip : ∀ (ks : List String) (k : String) (v : GoVal) (tl : GoEntries),
    k ∉ ks → govFieldsToJ ks (.cons k v tl) = govFieldsToJ ks tl
  | [], k, v, tl, _ => by rw [govFieldsToJ_nil, govFieldsToJ_nil]
  | k0 :: ks, k, v, tl, h => by
    simp only [List.mem_cons, not_or] at h
    rw [govFieldsToJ_cons, govFieldsToJ_cons]
    simp only [GoEntries.lookup, if_neg h.1]
    rw [govFieldsToJ_skip ks k v tl h.2]

/-- Marshalling an ordered map whose key order is exactly its entry order
emits the members in entry order. -/
theorem govFieldsToJ_aligned : ∀ (m : GoEntries), m.keysList.Nodup →
    govFieldsToJ m.keysList m = goEntriesToJ m
  | .nil, _ => by
    simp only [GoEntries.keysList_nil]
    rw [govFieldsToJ_nil, goEntriesToJ]
  | .cons k v tl, hnod => by
    simp only [GoEntries.keysList_cons, List.nodup_cons] at hnod
    simp only [GoEntries.keysList_cons]
    have hlk : GoEntries.lookup k (GoEntries.cons k v tl) = some v := by
      simp [GoEntries.lookup]
    rw [govFieldsToJ_cons, hlk]
    rw [govFieldsToJ_skip tl.keysList k v tl hnod.1, govFieldsToJ_aligned tl hnod.2,
      goEntriesToJ]

@[simp] theorem keysList_goEntriesToJ : ∀ (m : GoEntries),
    (goEntriesToJ m).keysList = m.keysList
  | .nil => by rw [goEntriesToJ]; rfl
  | .cons k v tl => by
    rw [goEntriesToJ]
    simp [keysList_goEntriesToJ tl]

mutual
/-- Unmarshalling what marshalling produced gives the value back, for
canonical values. -/
theorem roundtrip_val : ∀ (v : GoVal), v.canonical = true → jToOrd (govToJ v) = v
  | .null, _ => by rw [govToJ]; rfl
  | .boolean b, _ => by rw [govToJ]; rfl
  | .number lit, _ => by rw [govToJ]; rfl
  | .str s, _ => by rw [govToJ]; rfl
  | .arr xs, h => by
    rw [govToJ, jToOrd, roundtrip_list xs (by simpa [GoVal.canonical] using h)]
  | .gomap m, h => by simp [GoVal.canonical] at h
  | .omap ks m, h => by
    simp only [GoVal.canonical, Bool.and_eq_true, decide_eq_true_eq] at h
    obtain ⟨⟨hkeys, hnod⟩, hcan⟩ := h
    subst hkeys
    rw [govToJ, govFieldsToJ_aligned m hnod, jToOrd, keysList_goEntriesToJ,
      roundtrip_entries m hcan]

/-- Same for slices. -/
theorem roundtrip_list : ∀ (xs : GoList), xs.canonical = true →
    jListToOrd (govListToJ xs) = xs
  | .nil, _ => by rw [govListToJ]; rfl
  | .cons hd tl, h => by
    simp only [GoList.canonical, Bool.and_eq_true] at h
    rw [govListToJ, jListToOrd, roundtrip_val hd h.1, roundtrip_list tl h.2]

/-- Same for entry maps marshalled in entry order. -/
theorem roundtrip_entries : ∀ (m : GoEntries), m.canonical = true →
    ordEntries (goEntriesToJ m) = m
  | .nil, _ => by rw [goEntriesToJ]; rfl
  | .cons k v tl, h => by
    simp only [GoEntries.canonical_cons, Bool.and_eq_true] at h
    rw [goEntriesToJ, ordEntries, roundtrip_val v h.1, roundtrip_entries tl h.2]
end

mutual
/-- Marshalling a canonical value produces a duplicate-free document. -/
theorem dupFree_govToJ : ∀ (v : GoVal), v.canonical = true → (govToJ v).dupFree = true
  | .null, _ => by rw [govToJ]; rfl
  | .boolean b, _ => by rw [govToJ]; rfl
  | .number lit, _ => by rw [govToJ]; rfl
  | .str s, _ => by rw [govToJ]; rfl
  | .arr xs, h => by
    rw [govToJ]
    simp only [J.dupFree]
    exact dupFree_govListToJ xs (by simpa [GoVal.canonical] using h)
  | .gomap m, h => by simp [GoVal.canonical] at h
  | .omap ks m, h => by
    simp only [GoVal.canonical, Bool.and_eq_true, decide_eq_true_eq] at h
    obtain ⟨⟨hkeys, hnod⟩, hcan⟩ := h
    subst hkeys
    rw [govToJ, govFieldsToJ_aligned m hnod]
    simp only [J.dupFree, Bool.and_eq_true, decide_eq_true_eq, keysList_goEntriesToJ]
    exact ⟨hnod, dupFree_goEntriesToJ m hcan⟩

/-- Same for slices. -/
theorem dupFree_govListToJ : ∀ (xs : GoList), xs.canonical = true →
    (govListToJ xs).dupFree = true
  | .nil, _ => by rw [govListToJ]; rfl
  | .cons hd tl, h => by
    simp only [GoList.canonical, Bool.and_eq_true] at h
    rw [govListToJ]
    simp only [JList.dupFree, Bool.and_eq_true]
    exact ⟨dupFree_govToJ hd h.1, dupFree_govListToJ tl h.2⟩

/-- Same for entry maps marshalled in entry order. -/
theorem dupFree_goEntriesToJ : ∀ (m : GoEntries), m.canonical = true →
    (goEntriesToJ m).dupFree = true
  | .nil, _ => by rw [goEntriesToJ]; rfl
  | .cons k v tl, h => by
    simp only [GoEntries.canonical_cons, Bool.and_eq_true] at h
    rw [goEntriesToJ]
    simp only [JMembers.dupFree, Bool.and_eq_true]
    exact ⟨dupFree_govToJ v h.1, dupFree_goEntriesToJ tl h.2⟩
end

/-! ## Canonical shape is preserved by Set -/

@[simp] theorem GoEntries.canonical_nil : GoEntries.nil.canonical = true := rfl

theorem GoEntries.canonical_insert : ∀ (m : GoEntries) (k : String) (v : GoVal),
    m.canonical = true → v.canonical = true → (m.insert k v).canonical = true
  | .nil, k, v, _, hv => by simp [GoEntries.insert, GoEntries.canonical_cons, hv]
  | .cons k0 v0 tl, k, v, hm, hv => by
    rw [GoEntries.canonical_cons, Bool.and_eq_true] at hm
    by_cases h0 : k0 = k
    · simp [GoEntries.insert, h0, GoEntries.canonical_cons, hv, hm.2]
    · simp [GoEntries.insert, h0, GoEntries.canonical_cons, hm.1,
        GoEntries.canonical_insert tl k v hm.2 hv]

theorem canonical_New : New.canonical = true := by decide

theorem canonical_Set (o : OrderedMap) (k : String) (v : GoVal)
    (ho : o.canonical = true) (hv : v.canonical = true) : (o.Set k v).canonical = true := by
  simp only [OrderedMap.canonical, Bool.and_eq_true, decide_eq_true_eq] at ho
  obtain ⟨⟨hkeys, hnod⟩, hcan⟩ := ho
  unfold OrderedMap.Set
  cases hlk : o.values.lookup k with
  | some w =>
    have hmem : k ∈ o.values.keysList := by
      rw [← GoEntries.lookup_isSome_iff, hlk]
      rfl
    simp only [OrderedMap.canonical, Bool.and_eq_true, decide_eq_true_eq]
    exact ⟨⟨by rw [GoEntries.keysList_insert_mem _ _ _ hmem, hkeys], hnod⟩,
      GoEntries.canonical_insert _ _ _ hcan hv⟩
  | none =>
    have hmem : k ∉ o.values.keysList := (GoEntries.lookup_none_iff _ _).mp hlk
    have hmemk : k ∉ o.keys := by rw [← hkeys]; exact hmem
    simp only [OrderedMap.canonical, Bool.and_eq_true, decide_eq_true_eq]
    refine ⟨⟨by rw [GoEntries.keysList_insert_fresh _ _ _ hmem, hkeys], ?_⟩,
      GoEntries.canonical_insert _ _ _ hcan hv⟩
    simp [List.nodup_append, hnod, hmemk]

theorem canonical_setAll : ∀ (ops : List (String × GoVal)) (o : OrderedMap),
    o.canonical = true → (∀ p ∈ ops, p.2.canonical = true) →
    (setAll o ops).canonical = true
  | [], o, ho, _ => by simpa [setAll] using ho
  | p :: ps, o, ho, hv => by
    have := canonical_setAll ps (o.Set p.1 p.2)
      (canonical_Set o p.1 p.2 ho (hv p (by simp)))
      (fun q hq => hv q (by simp [hq]))
    simpa [setAll] using this

/-! ## The unmarshal pipeline -/

/-- The scanner call `UnmarshalJSON` makes, characterised by the first
duplicate of the input document. -/
theorem CheckDuplicate_toToks (j : J) :
    CheckDuplicate (j.toToks.length + 1) j.toToks = dupResult j.firstDup [] := by
  have := (scanner_correct (j.toToks.length + 1)).1 j [] (by omega)
  simpa using this

/-- A duplicate key anywhere in the input makes `UnmarshalJSON` fail
immediately with the duplicate error, leaving the container exactly as it
was. -/
theorem unmarshal_dupFail (o : OrderedMap) (j : J) (k : String) (h : j.firstDup = some k) :
    UnmarshalJSON o j = (.error (.dup k), o) := by
  unfold UnmarshalJSON
  rw [CheckDuplicate_toToks, h]
  rfl

/-- When the scanner passes but the generic decoding pass rejects the
input (a non-object, non-null document), `UnmarshalJSON` returns that
error with the container unchanged. -/
theorem unmarshal_step2Fail (o : OrderedMap) (j : J) (e : JErr)
    (h1 : j.firstDup = none) (h2 : jsonUnmarshalValues j o.values = .error e) :
    UnmarshalJSON o j = (.error e, o) := by
  unfold UnmarshalJSON
  rw [CheckDuplicate_toToks, h1]
  simp only [dupResult]
  rw [h2]

/-- Unmarshalling the document `null`: the scanner passes, the generic
pass clears the backing map (stdlib null handling), the key order is
reset, and then the order-recovery pass hits the end of the token stream
— the call fails with a token error but the container has been emptied,
whatever it held before. -/
theorem unmarshal_null (o : OrderedMap) :
    UnmarshalJSON o J.null = (.error .tokenErr, ⟨[], .nil⟩) := rfl

/-- Unmarshalling a duplicate-free object into the fresh container
succeeds and yields exactly the member keys in document order with the
promoted entries. -/
theorem unmarshal_New_obj (ms : JMembers) (h : (J.obj ms).dupFree = true) :
    UnmarshalJSON New (.obj ms) = (.ok (), ⟨ms.keysList, ordEntries ms⟩) := by
  have hfd : (J.obj ms).firstDup = none := (firstDup_none_iff_dupFree _).mpr h
  simp only [J.dupFree, Bool.and_eq_true, decide_eq_true_eq] at h
  obtain ⟨hnod, hdf⟩ := h
  unfold UnmarshalJSON
  rw [CheckDuplicate_toToks, hfd]
  simp only [dupResult]
  rw [show jsonUnmarshalValues (J.obj ms) New.values = .ok (flatEntries ms) by
    simp only [jsonUnmarshalValues, New]
    rw [mergeMembers_fresh ms .nil hnod (by simp)]
    rfl]
  have htoks : (J.obj ms).toToks = .lbrace :: (ms.toToks ++ [.rbrace]) := by
    simp [J.toToks]
  rw [htoks]
  simp only [decode]
  have hP := (decode_correct ((ms.toToks ++ [Tok.rbrace]).length + 1)).1 ms [] [] .nil []
    hdf hnod (by simp) (by simp)
    (by simp only [List.length_append, List.length_singleton]; omega)
  simp only [GoEntries.nil_append, List.nil_append] at hP
  rw [hP]

/-- Round trip for a canonical container: unmarshalling the marshalled
document into a fresh container reproduces the container exactly. -/
theorem roundtrip_canonical (c : OrderedMap) (hc : c.canonical = true) :
    UnmarshalJSON New c.marshalJ = (.ok (), c) := by
  simp only [OrderedMap.canonical, Bool.and_eq_true, decide_eq_true_eq] at hc
  obtain ⟨⟨hkeys, hnod⟩, hcan⟩ := hc
  have hnod' : c.values.keysList.Nodup := by rw [hkeys]; exact hnod
  have halign : govFieldsToJ c.keys c.values = goEntriesToJ c.values := by
    rw [← hkeys]
    exact govFieldsToJ_aligned c.values hnod'
  have hdf : (J.obj (goEntriesToJ c.values)).dupFree = true := by
    simp only [J.dupFree, Bool.and_eq_true, decide_eq_true_eq, keysList_goEntriesToJ]
    exact ⟨hnod', dupFree_goEntriesToJ _ hcan⟩
  rw [OrderedMap.marshalJ, halign, unmarshal_New_obj _ hdf, keysList_goEntriesToJ, hkeys,
    roundtrip_entries _ hcan]

/-! ## The membership invariant under the public operations -/

theorem invariantB_iff (o : OrderedMap) : o.invariantB = true ↔
    ((∀ k ∈ o.keys, (o.values.lookup k).isSome = true)
      ∧ (∀ k ∈ o.values.keysList, k ∈ o.keys)
      ∧ o.keys.Nodup) := by
  simp [OrderedMap.invariantB, List.all_eq_true, Bool.and_eq_true, and_assoc]

theorem invariantB_Set (o : OrderedMap) (k : String) (v : GoVal)
    (h : o.invariantB = true) : (o.Set k v).invariantB = true := by
  rw [invariantB_iff] at h
  obtain ⟨h1, h2, h3⟩ := h
  rw [invariantB_iff]
  unfold OrderedMap.Set
  cases hlk : o.values.lookup k with
  | some w =>
    have hmem : k ∈ o.values.keysList := by
      rw [← GoEntries.lookup_isSome_iff, hlk]
      rfl
    refine ⟨?_, ?_, h3⟩
    · intro k' hk'
      by_cases hkk : k' = k
      · subst hkk
        rw [GoEntries.lookup_insert_self]
        rfl
      · rw [GoEntries.lookup_insert_ne _ _ _ _ hkk]
        exact h1 k' hk'
    · intro k' hk'
      rw [GoEntries.keysList_insert_mem _ _ _ hmem] at hk'
      exact h2 k' hk'
  | none =>
    have hmem : k ∉ o.values.keysList := (GoEntries.lookup_none_iff _ _).mp hlk
    have hmemk : k ∉ o.keys := by
      intro hk
      have := h1 k hk
      rw [hlk] at this
      simp at this
    refine ⟨?_, ?_, by simp [List.nodup_append, h3, hmemk]⟩
    · intro k' hk'
      rcases List.mem_append.mp hk' with hk' | hk'
      · have hkk : k' ≠ k := fun hh => hmemk (hh ▸ hk')
        rw [GoEntries.lookup_insert_ne _ _ _ _ hkk]
        exact h1 k' hk'
      · rcases List.mem_singleton.mp hk' with rfl
        rw [GoEntries.lookup_insert_self]
        rfl
    · intro k' hk'
      rw [GoEntries.keysList_insert_fresh _ _ _ hmem] at hk'
      rcases List.mem_append.mp hk' with hk' | hk'
      · exact List.mem_append.mpr (Or.inl (h2 k' hk'))
      · exact List.mem_append.mpr (Or.inr hk')

theorem nodupValues_Set (o : OrderedMap) (k : String) (v : GoVal)
    (h : o.values.keysList.Nodup) : (o.Set k v).values.keysList.Nodup := by
  unfold OrderedMap.Set
  cases hlk : o.values.lookup k with
  | some w =>
    have hmem : k ∈ o.values.keysList := by
      rw [← GoEntries.lookup_isSome_iff, hlk]
      rfl
    simpa [GoEntries.keysList_insert_mem _ _ _ hmem] using h
  | none =>
    have hmem : k ∉ o.values.keysList := (GoEntries.lookup_none_iff _ _).mp hlk
    simp [GoEntries.keysList_insert_fresh _ _ _ hmem, List.nodup_append, h, hmem]

theorem invariantB_Delete (o : OrderedMap) (k : String)
    (h : o.invariantB = true) (hval : o.values.keysList.Nodup) :
    (o.Delete k).invariantB = true := by
  rw [invariantB_iff] at h
  obtain ⟨h1, h2, h3⟩ := h
  rw [invariantB_iff]
  unfold OrderedMap.Delete
  cases hlk : o.values.lookup k with
  | none => exact ⟨h1, h2, h3⟩
  | some w =>
    refine ⟨?_, ?_, h3.erase k⟩
    · intro k' hk'
      rw [List.Nodup.mem_erase_iff h3] at hk'
      rw [GoEntries.lookup_erase_ne _ _ _ hk'.1]
      exact h1 k' hk'.2
    · intro k' hk'
      rw [GoEntries.keysList_erase, List.Nodup.mem_erase_iff hval] at hk'
      rw [List.Nodup.mem_erase_iff h3]
      exact ⟨hk'.1, h2 k' hk'.2⟩

theorem nodupValues_Delete (o : OrderedMap) (k : String)
    (hval : o.values.keysList.Nodup) : (o.Delete k).values.keysList.Nodup := by
  unfold OrderedMap.Delete
  cases hlk : o.values.lookup k with
  | none => exact hval
  | some w =>
    rw [GoEntries.keysList_erase]
    exact hval.erase k

theorem invariantB_permKeys (o : OrderedMap) (ks' : List String)
    (hperm : ks'.Perm o.keys) (h : o.invariantB = true) :
    (OrderedMap.mk ks' o.values).invariantB = true := by
  rw [invariantB_iff] at h
  obtain ⟨h1, h2, h3⟩ := h
  rw [invariantB_iff]
  exact ⟨fun k hk => h1 k (hperm.mem_iff.mp hk),
    fun k hk => hperm.mem_iff.mpr (h2 k hk), hperm.symm.nodup h3⟩

/-- Unmarshalling any document into the fresh container leaves a state
satisfying the membership invariant, whether the call succeeds or
fails. -/
theorem invariant_unmarshal_New (j : J) :
    ((UnmarshalJSON New j).2).invariantB = true
      ∧ ((UnmarshalJSON New j).2).values.keysList.Nodup := by
  have hN : New.invariantB = true ∧ New.values.keysList.Nodup := ⟨by decide, by decide⟩
  have hE : (OrderedMap.mk [] .nil).invariantB = true
      ∧ (OrderedMap.mk [] .nil).values.keysList.Nodup := ⟨by decide, by decide⟩
  cases hfd : j.firstDup with
  | some k => rw [unmarshal_dupFail New j k hfd]; exact hN
  | none =>
    have hdf := (firstDup_none_iff_dupFree j).mp hfd
    cases j with
    | null => rw [unmarshal_null]; exact hE
    | boolean b =>
      rw [unmarshal_step2Fail New _ .typeErr hfd rfl]
      exact hN
    | number lit =>
      rw [unmarshal_step2Fail New _ .typeErr hfd rfl]
      exact hN
    | str s =>
      rw [unmarshal_step2Fail New _ .typeErr hfd rfl]
      exact hN
    | arr xs =>
      rw [unmarshal_step2Fail New _ .typeErr hfd rfl]
      exact hN
    | obj ms =>
      rw [unmarshal_New_obj ms hdf]
      simp only [J.dupFree, Bool.and_eq_true, decide_eq_true_eq] at hdf
      constructor
      · rw [invariantB_iff]
        refine ⟨?_, ?_, hdf.1⟩
        · intro k hk
          rw [GoEntries.lookup_isSome_iff, keysList_ordEntries]
          exact hk
        · intro k hk
          rwa [keysList_ordEntries] at hk
      · simpa [keysList_ordEntries] using hdf.1

/-- Every container reachable with `UnmarshalJSON` restricted to the
fresh container satisfies the membership invariant and has a
duplicate-free backing map. -/
theorem reachFresh_invariant : ∀ (o : OrderedMap), ReachFresh o →
    o.invariantB = true ∧ o.values.keysList.Nodup := by
  intro o h
  induction h with
  | new => exact ⟨by decide, by decide⟩
  | set o k v _ ih => exact ⟨invariantB_Set o k v ih.1, nodupValues_Set o k v ih.2⟩
  | del o k _ ih => exact ⟨invariantB_Delete o k ih.1 ih.2, nodupValues_Delete o k ih.2⟩
  | sortKeys o f _ hperm ih =>
    exact ⟨invariantB_permKeys o (f o.keys) hperm ih.1, ih.2⟩
  | sort o g _ hperm ih =>
    refine ⟨invariantB_permKeys o _ ?_ ih.1, ih.2⟩
    have hfst : ∀ ks : List String,
        (ks.map (fun k => (k, (GoEntries.lookup k o.values).getD GoVal.null))).map Prod.fst
          = ks := by
      intro ks
      induction ks with
      | nil => rfl
      | cons a t iht => simp [iht]
    have := hperm.map Prod.fst
    rwa [hfst] at this
  | unmarshal j => exact invariant_unmarshal_New j

/-! ## Set, Delete and positional access -/

theorem Set_values (o : OrderedMap) (k : String) (v : GoVal) :
    (o.Set k v).values = o.values.insert k v := by
  unfold OrderedMap.Set
  cases o.values.lookup k <;> rfl

theorem Set_keys_present (o : OrderedMap) (k : String) (v : GoVal)
    (h : (o.values.lookup k).isSome = true) : (o.Set k v).keys = o.keys := by
  unfold OrderedMap.Set
  cases hlk : o.values.lookup k with
  | none => rw [hlk] at h; simp at h
  | some w => rfl

theorem Get_Set_self (o : OrderedMap) (k : String) (v : GoVal) : (o.Set k v).Get k = v := by
  unfold OrderedMap.Get
  rw [Set_values, GoEntries.lookup_insert_self]
  rfl

theorem setAll_keys : ∀ (ops : List (String × GoVal)) (o : OrderedMap),
    (ops.map Prod.fst).Nodup → (∀ p ∈ ops, o.values.lookup p.1 = none) →
    (setAll o ops).keys = o.keys ++ ops.map Prod.fst
  | [], o, _, _ => by simp [setAll]
  | p :: ps, o, hnod, hfresh => by
    simp only [List.map_cons, List.nodup_cons] at hnod
    have hp : o.values.lookup p.1 = none := hfresh p (by simp)
    have hkeys : (o.Set p.1 p.2).keys = o.keys ++ [p.1] := by
      unfold OrderedMap.Set
      rw [hp]
    have hfresh' : ∀ q ∈ ps, (o.Set p.1 p.2).values.lookup q.1 = none := by
      intro q hq
      have hne : q.1 ≠ p.1 := by
        intro hh
        exact hnod.1 (hh ▸ List.mem_map_of_mem Prod.fst hq)
      rw [Set_values, GoEntries.lookup_insert_ne _ _ _ _ hne]
      exact hfresh q (by simp [hq])
    have hrec := setAll_keys ps (o.Set p.1 p.2) hnod.2 hfresh'
    calc (setAll o (p :: ps)).keys = (setAll (o.Set p.1 p.2) ps).keys := by
          simp [setAll]
    _ = o.keys ++ (p :: ps).map Prod.fst := by
          rw [hrec, hkeys]
          simp

theorem Delete_absent (o : OrderedMap) (k : String) (h : o.values.lookup k = none) :
    o.Delete k = o := by
  unfold OrderedMap.Delete
  rw [h]

theorem Delete_present (o : OrderedMap) (k : String) (h : (o.values.lookup k).isSome = true) :
    o.Delete k = ⟨o.keys.erase k, o.values.erase k⟩ := by
  unfold OrderedMap.Delete
  cases hlk : o.values.lookup k with
  | none => rw [hlk] at h; simp at h
  | some w => rfl

/-- Positional read at a natural index is list indexing. -/
theorem GetKeyAt_natCast (o : OrderedMap) (n : Nat) : o.GetKeyAt (n : Int) = o.keys[n]? := by
  unfold OrderedMap.GetKeyAt
  by_cases h : n < o.keys.length
  · rw [dif_pos ⟨Int.natCast_nonneg n, by simpa using h⟩]
    simp [List.getElem?_eq_getElem h]
  · rw [dif_neg (by push_neg; intro _; simpa using h), List.getElem?_eq_none (by omega)]

/-- Indexing after erasing the first occurrence of a present element:
positions before its index are unchanged, positions from its index on
shift down by one. -/
theorem getElem?_erase : ∀ (l : List String) (a : String) (n : Nat), a ∈ l →
    (n < l.indexOf a → (l.erase a)[n]? = l[n]?)
      ∧ (l.indexOf a ≤ n → (l.erase a)[n]? = l[n + 1]?) := by
  intro l
  induction l with
  | nil => intro a n h; simp at h
  | cons b tl ih =>
    intro a n hmem
    by_cases hab : b = a
    · subst hab
      rw [List.erase_cons_head]
      refine ⟨fun hlt => ?_, fun _ => by simp⟩
      rw [List.indexOf_cons_self] at hlt
      omega
    · rw [List.erase_cons_tail (by simpa using hab)]
      have hidx : (b :: tl).indexOf a = tl.indexOf a + 1 :=
        List.indexOf_cons_ne _ hab
      have hmem' : a ∈ tl := by
        rcases List.mem_cons.mp hmem with rfl | h
        · exact absurd rfl hab
        · exact h
      cases n with
      | zero =>
        refine ⟨fun _ => by simp, fun hle => ?_⟩
        rw [hidx] at hle
        omega
      | succ m =>
        refine ⟨fun hlt => ?_, fun hle => ?_⟩
        · rw [hidx] at hlt
          simpa using (ih a m hmem').1 (by omega)
        · rw [hidx] at hle
          simpa using (ih a m hmem').2 (by omega)

/-! ## The marshalled byte shape -/

/-- The text `MarshalJSON` emits for one member, per the corrected claim:
the encoded key, a newline (the stdlib encoder terminates every value it
writes with one), a colon, the compact encoding of the value, and a
newline. -/
def fieldText (values : GoEntries) (k : String) : String :=
  encString k ++ "\n" ++ ":" ++ encJ (govToJ ((values.lookup k).getD .null)) ++ "\n"

/-- Comma-separated join with no leading or trailing separator, following
the claim's words for "pairs separated by a comma with no trailing
comma". -/
def commaSeparated : List String → String
  | [] => ""
  | [x] => x
  | x :: xs => x ++ "," ++ commaSeparated xs

theorem marshalFields_eq : ∀ (ks : List String) (values : GoEntries),
    (marshalFields values ks true = commaSeparated (ks.map (fieldText values)))
    ∧ (marshalFields values ks false
      = match ks with
        | [] => ""
        | _ :: _ => "," ++ commaSeparated (ks.map (fieldText values)))
  | [], values => by simp [marshalFields, commaSeparated]
  | k :: ks, values => by
    have ih2 := (marshalFields_eq ks values).2
    have hstep : ∀ b : Bool, marshalFields values (k :: ks) b
        = (if b then "" else ",") ++ (fieldText values k ++ marshalFields values ks false) := by
      intro b
      show (if b then "" else ",") ++ encString k ++ "\n" ++ ":"
          ++ encJ (govToJ ((values.lookup k).getD .null)) ++ "\n"
          ++ marshalFields values ks false = _
      simp only [fieldText, String.append_assoc]
    cases ks with
    | nil =>
      have ih2' : marshalFields values [] false = "" := ih2
      constructor
      · rw [hstep true, if_pos rfl, String.empty_append, ih2', String.append_empty]
        rfl
      · rw [hstep false, if_neg (by simp), ih2', String.append_empty]
        rfl
    | cons k' ks' =>
      have ih2' : marshalFields values (k' :: ks') false
          = "," ++ commaSeparated ((k' :: ks').map (fieldText values)) := ih2
      have h : fieldText values k
            ++ ("," ++ commaSeparated ((k' :: ks').map (fieldText values)))
          = commaSeparated ((k :: k' :: ks').map (fieldText values)) := by
        rw [← String.append_assoc]
        rfl
      constructor
      · rw [hstep true, if_pos rfl, String.empty_append, ih2', h]
      · rw [hstep false, if_neg (by simp), ih2', h]

/-! ## The claims -/

deriving instance DecidableEq for Except

/-- The input of the first duplicate-rejection example:
an object with key a, then b, then a again. -/
def exDupTop : J :=
  .obj (.cons "a" (.number "1") (.cons "b" (.number "2") (.cons "a" (.number "3") .nil)))

/-- The nested duplicate example: an object whose member a holds an object
with key x twice. -/
def exDupNested : J :=
  .obj (.cons "a" (.obj (.cons "x" (.number "1") (.cons "x" (.number "2") .nil))) .nil)

/-- The in-array duplicate example: an array whose element is an object
with key a twice. -/
def exDupArray : J :=
  .arr (.cons (.obj (.cons "a" (.number "1") (.cons "a" (.number "2") .nil))) .nil)

/-- C1: for every JSON input containing a duplicated object key at any
nesting depth, UnmarshalJSON fails with a DuplicateKey error naming an
offending key (a key some object of the input really holds twice) and
leaves the target container untouched; in particular the three example
inputs fail naming "a", "x" and "a" respectively. -/
theorem claim_C1 :
    (∀ (j : J) (o : OrderedMap), j.dupFree = false →
      ∃ k, UnmarshalJSON o j = (.error (.dup k), o) ∧ j.hasDupKey k = true)
    ∧ (UnmarshalJSON New exDupTop).1 = .error (.dup "a")
    ∧ (UnmarshalJSON New exDupNested).1 = .error (.dup "x")
    ∧ (UnmarshalJSON New exDupArray).1 = .error (.dup "a") := by
  refine ⟨?_, by decide, by decide, by decide⟩
  intro j o hdf
  cases hfd : j.firstDup with
  | none =>
    rw [(firstDup_none_iff_dupFree j).mp hfd] at hdf
    exact absurd hdf (by simp)
  | some k =>
    exact ⟨k, unmarshal_dupFail o j k hfd, firstDup_some_hasDup j k hfd⟩

/-- Witness for C1 at the first example input. -/
theorem claim_C1_witness :
    exDupTop.dupFree = false
    ∧ ∃ k, UnmarshalJSON New exDupTop = (.error (.dup k), New)
        ∧ exDupTop.hasDupKey k = true :=
  ⟨by decide, claim_C1.1 exDupTop New (by decide)⟩

/-- C2: for every container built from the empty container by a sequence
of Set calls whose values lie in the specification's closed value domain
(no raw Go maps; nested ordered containers in the canonical shape Set
maintains), unmarshalling the marshalled document into a fresh container
reproduces the container exactly — the same Keys() order and the same
values, recursively for nested containers. -/
theorem claim_C2 :
    ∀ (ops : List (String × GoVal)), (∀ p ∈ ops, p.2.canonical = true) →
      UnmarshalJSON New (setAll New ops).marshalJ = (.ok (), setAll New ops) :=
  fun ops h => roundtrip_canonical _ (canonical_setAll ops New canonical_New h)

/-- A concrete Set sequence with a re-set key, a nested ordered container
and an array, for the C2 witness. -/
def roundtripOps : List (String × GoVal) :=
  [("b", .number "2"),
   ("a", .omap ["x"] (.cons "x" (.arr (.cons (.number "1") .nil)) .nil)),
   ("b", .boolean true)]

/-- Witness for C2 at a concrete Set sequence. -/
theorem claim_C2_witness :
    (∀ p ∈ roundtripOps, p.2.canonical = true)
    ∧ UnmarshalJSON New (setAll New roundtripOps).marshalJ = (.ok (), setAll New roundtripOps) :=
  ⟨by decide, claim_C2 roundtripOps (by decide)⟩

/-- C3: setting N distinct keys in order on the empty container makes
Keys() exactly that sequence; and Set on a key already present (in the
backing map, as the source tests presence) overwrites its value and
leaves the whole key order — in particular the key's position —
unchanged. -/
theorem claim_C3 :
    (∀ (ops : List (String × GoVal)), (ops.map Prod.fst).Nodup →
      (setAll New ops).Keys = ops.map Prod.fst)
    ∧ ∀ (o : OrderedMap) (k : String) (v : GoVal),
        (o.values.lookup k).isSome = true →
        (o.Set k v).Keys = o.Keys ∧ (o.Set k v).Get k = v := by
  constructor
  · intro ops hnod
    have := setAll_keys ops New hnod (fun p _ => rfl)
    simpa [OrderedMap.Keys, New] using this
  · exact fun o k v h => ⟨Set_keys_present o k v h, Get_Set_self o k v⟩

/-- Witness for C3 at a two-key sequence and a present-key overwrite. -/
theorem claim_C3_witness :
    ((([("a", GoVal.null), ("b", GoVal.boolean true)] : List (String × GoVal)).map
      Prod.fst).Nodup)
    ∧ (setAll New [("a", GoVal.null), ("b", GoVal.boolean true)]).Keys
        = ([("a", GoVal.null), ("b", GoVal.boolean true)] : List (String × GoVal)).map
            Prod.fst :=
  ⟨by decide, claim_C3.1 _ (by decide)⟩

/-- A container already holding the key x, for the C4 counterexample. -/
def preloaded : OrderedMap := New.Set "x" GoVal.null

/-- Counterexample to C4 as stated: UnmarshalJSON is not all-or-nothing.
On the valid input null against a container holding one entry, the call
returns a token error, yet the container is modified: its entry is gone
(the generic pass cleared the backing map and the key order was reset
before the failing order-recovery pass ran). -/
theorem claim_C4_counterexample :
    (UnmarshalJSON preloaded J.null).1 = .error .tokenErr
    ∧ (UnmarshalJSON preloaded J.null).2 ≠ preloaded
    ∧ preloaded.Len = 1
    ∧ ((UnmarshalJSON preloaded J.null).2).Len = 0 := by
  decide

/-- C4 as amended: the failures of the first two passes are
all-or-nothing.  When the duplicate scan fails, UnmarshalJSON returns the
duplicate error with the container exactly as it was — no partial state;
and when the scan passes but the generic decoding pass rejects the input,
the returned container is likewise unchanged.  (A failure of the later
order-recovery pass — input null — can leave the container emptied, per
the counterexample.) -/
theorem claim_C4 :
    (∀ (o : OrderedMap) (j : J) (k : String), j.firstDup = some k →
      UnmarshalJSON o j = (.error (.dup k), o))
    ∧ ∀ (o : OrderedMap) (j : J) (e : JErr), j.firstDup = none →
        jsonUnmarshalValues j o.values = .error e →
        UnmarshalJSON o j = (.error e, o) :=
  ⟨unmarshal_dupFail, unmarshal_step2Fail⟩

/-- Witness for C4 at a duplicate-key input against a populated
container. -/
theorem claim_C4_witness :
    (J.obj (.cons "k" (.number "1") (.cons "k" (.number "2") .nil))).firstDup = some "k"
    ∧ UnmarshalJSON preloaded (.obj (.cons "k" (.number "1") (.cons "k" (.number "2") .nil)))
        = (.error (.dup "k"), preloaded) :=
  ⟨by decide, claim_C4.1 preloaded _ "k" (by decide)⟩

/-- Counterexample to C5 as stated: MarshalJSON output is not compact.
For the one-entry container {"a": null} the emitted bytes are not the
compact form, and they contain a newline character — the stdlib encoder
the source drives with encoder.Encode terminates each written key and
value with a newline. -/
theorem claim_C5_counterexample :
    (New.Set "a" GoVal.null).MarshalJSON ≠ "\x7b\"a\":null\x7d"
    ∧ '\n' ∈ (New.Set "a" GoVal.null).MarshalJSON.toList := by
  have h : (New.Set "a" GoVal.null).MarshalJSON = "\x7b\"a\"\n:null\n\x7d" := by
    rw [show New.Set "a" GoVal.null = OrderedMap.mk ["a"] (.cons "a" .null .nil) from rfl]
    rw [OrderedMap.MarshalJSON]
    simp only [marshalFields, GoEntries.lookup, if_pos, Option.getD_some]
    rw [govToJ]
    rfl
  rw [h]
  exact ⟨by decide, by decide⟩

/-- C5 as amended: MarshalJSON emits an opening brace, then one field per
key in order — the encoded key, a newline, a colon, the compact encoding
of the value, and a newline — the fields separated by commas with no
trailing comma, then a closing brace; the empty container serializes to
exactly the two braces.  The output is valid JSON but not
whitespace-free: a newline follows each key and each value. -/
theorem claim_C5 :
    (∀ (o : OrderedMap),
      o.MarshalJSON = "\x7b" ++ commaSeparated (o.keys.map (fieldText o.values)) ++ "\x7d")
    ∧ New.MarshalJSON = "\x7b\x7d" := by
  constructor
  · intro o
    rw [OrderedMap.MarshalJSON, (marshalFields_eq o.keys o.values).1]
  · rw [OrderedMap.MarshalJSON]
    simp only [marshalFields]
    rfl

/-- The input object for the C6 counterexample. -/
def invadedInput : J := .obj (.cons "a" (.number "1") .nil)

/-- The state the counterexample exhibits: UnmarshalJSON called on a
container that already holds the key x. -/
def invadedState : OrderedMap := (UnmarshalJSON (New.Set "x" GoVal.null) invadedInput).2

/-- Counterexample to C6 as stated: a container reachable through the
public interface that violates the membership invariant.  Unmarshalling a
one-member object into a container already holding the key x succeeds,
but the generic pass keeps the stale entry for x in the backing map while
the rebuilt key order mentions only the document's key — so the key set
of the map is strictly larger than the key order. -/
theorem claim_C6_counterexample :
    Reach invadedState ∧ invadedState.invariantB = false :=
  ⟨Reach.unmarshal _ _ (Reach.set _ _ _ Reach.new), by decide⟩

/-- C6 as amended: every container reachable through the public interface
with UnmarshalJSON applied only to the fresh container — Set, Delete,
SortKeys and Sort with sorting functions that permute their input, and
unmarshalling (successful or failed) into New — keeps the keys sequence
and the key set of the values map identical in membership, with every key
appearing exactly once. -/
theorem claim_C6 : ∀ (o : OrderedMap), ReachFresh o → o.invariantB = true :=
  fun o h => (reachFresh_invariant o h).1

/-- Witness for C6 at a concrete reachable container. -/
theorem claim_C6_witness : ((New.Set "a" GoVal.null).Delete "b").invariantB = true :=
  claim_C6 _ (ReachFresh.del _ "b" (ReachFresh.set _ "a" _ ReachFresh.new))

/-- C7: Delete on an absent key is a no-op, the container (hence Len and
Keys) unchanged; Delete on a present key, on any container satisfying the
membership invariant (with the backing map's keys unique, as Go maps
guarantee), removes the key from Keys() and from the map, leaves every
other key's Get value unchanged, shortens the container by one, preserves
the relative order of the remaining keys, and shifts GetKeyAt/GetValueAt:
positions before the deleted key's index read as before, positions from
its index on read what was one position further. -/
theorem claim_C7 :
    (∀ (o : OrderedMap) (k : String), o.values.lookup k = none → o.Delete k = o)
    ∧ ∀ (o : OrderedMap) (k : String),
        o.invariantB = true → o.values.keysList.Nodup →
        (o.values.lookup k).isSome = true →
        ((o.Delete k).Keys = o.Keys.erase k
          ∧ k ∉ (o.Delete k).Keys
          ∧ (o.Delete k).values.lookup k = none
          ∧ (∀ k', k' ≠ k → (o.Delete k).Get k' = o.Get k')
          ∧ (o.Delete k).Len + 1 = o.Len
          ∧ ∀ n : Nat,
              (n < o.Keys.indexOf k →
                (o.Delete k).GetKeyAt (n : Int) = o.GetKeyAt (n : Int)
                  ∧ (o.Delete k).GetValueAt (n : Int) = o.GetValueAt (n : Int))
              ∧ (o.Keys.indexOf k ≤ n →
                (o.Delete k).GetKeyAt (n : Int) = o.GetKeyAt ((n + 1 : Nat) : Int)
                  ∧ (o.Delete k).GetValueAt (n : Int)
                      = o.GetValueAt ((n + 1 : Nat) : Int))) := by
  refine ⟨Delete_absent, ?_⟩
  intro o k hinv hval hk
  rw [invariantB_iff] at hinv
  obtain ⟨h1, h2, h3⟩ := hinv
  have hkm : k ∈ o.values.keysList := (GoEntries.lookup_isSome_iff _ _).mp hk
  have hkk : k ∈ o.keys := h2 k hkm
  have hdel := Delete_present o k hk
  have hGK : ∀ n : Nat, (o.Delete k).GetKeyAt (n : Int) = (o.keys.erase k)[n]? := by
    intro n
    rw [hdel, GetKeyAt_natCast]
  have hGV : ∀ (n m : Nat), (o.keys.erase k)[n]? = o.keys[m]? →
      (o.Delete k).GetValueAt (n : Int) = o.GetValueAt (m : Int) := by
    intro n m hnm
    unfold OrderedMap.GetValueAt
    rw [hGK n, GetKeyAt_natCast, hnm]
    cases hgm : o.keys[m]? with
    | none => rfl
    | some k' =>
      have hk'mem : k' ∈ o.keys.erase k := by
        have hsome : (o.keys.erase k)[n]? = some k' := by rw [hnm, hgm]
        exact List.getElem?_mem hsome
      have hne : k' ≠ k := fun hh => h3.not_mem_erase (hh ▸ hk'mem)
      rw [hdel]
      simp [GoEntries.lookup_erase_ne _ _ _ hne]
  refine ⟨by rw [hdel]; rfl, ?_, ?_, ?_, ?_, ?_⟩
  · rw [hdel]
    exact h3.not_mem_erase
  · rw [hdel]
    exact GoEntries.lookup_erase_self _ _ hval
  · intro k' hne
    unfold OrderedMap.Get
    rw [hdel]
    simp [GoEntries.lookup_erase_ne _ _ _ hne]
  · rw [hdel]
    show (o.keys.erase k).length + 1 = o.keys.length
    rw [List.length_erase_of_mem hkk]
    have hpos : o.keys ≠ [] := List.ne_nil_of_mem hkk
    have : 0 < o.keys.length := List.length_pos.mpr hpos
    omega
  · intro n
    constructor
    · intro hlt
      have hkey := (getElem?_erase o.keys k n hkk).1 hlt
      exact ⟨by rw [hGK n, GetKeyAt_natCast]; exact hkey, hGV n n hkey⟩
    · intro hge
      have hkey := (getElem?_erase o.keys k n hkk).2 hge
      exact ⟨by rw [hGK n, GetKeyAt_natCast]; exact hkey, hGV n (n + 1) hkey⟩

/-- Witness for C7 at a present-key delete on a two-entry container. -/
theorem claim_C7_witness :
    ((New.Set "a" GoVal.null).Set "b" (GoVal.number "1")).invariantB = true
    ∧ ((New.Set "a" GoVal.null).Set "b" (GoVal.number "1")).values.keysList.Nodup
    ∧ ((((New.Set "a" GoVal.null).Set "b" (GoVal.number "1")).values.lookup "a").isSome
        = true)
    ∧ (((New.Set "a" GoVal.null).Set "b" (GoVal.number "1")).Delete "a").Keys = ["b"] := by
  refine ⟨by decide, by decide, by decide, ?_⟩
  have h := (claim_C7.2 ((New.Set "a" GoVal.null).Set "b" (GoVal.number "1")) "a"
    (by decide) (by decide) (by decide)).1
  rw [h]
  decide

/-- The lexicographic sort function handed to SortKeys in C8. -/
def lexSort (ks : List String) : List String := ks.mergeSort

/-- C8: after SortKeys with the lexicographic sort, Keys() is
lexicographically ordered and Get is unchanged for every key; and both
SortKeys (with any sort function) and Sort (with any rearrangement)
never change the values map — access by key is unaffected. -/
theorem claim_C8 : ∀ (o : OrderedMap),
    List.Sorted (· ≤ ·) ((o.SortKeys lexSort).Keys)
    ∧ (∀ k, (o.SortKeys lexSort).Get k = o.Get k)
    ∧ (∀ f, (o.SortKeys f).values = o.values)
    ∧ ∀ g, (o.Sort g).values = o.values ∧ ∀ k, (o.Sort g).Get k = o.Get k := by
  intro o
  refine ⟨?_, fun k => rfl, fun f => rfl, fun g => ⟨rfl, fun k => rfl⟩⟩
  exact List.sorted_mergeSort' o.keys

/-- C9: positional access fails (returns nothing, modelling the Go
panic) exactly outside the valid range: for negative positions and
positions at or beyond Len(), GetKeyAt and GetValueAt yield nothing; for
every in-range position both succeed. -/
theorem claim_C9 : ∀ (o : OrderedMap) (pos : Int),
    ((pos < 0 ∨ (o.Len : Int) ≤ pos) → o.GetKeyAt pos = none ∧ o.GetValueAt pos = none)
    ∧ (0 ≤ pos → pos < (o.Len : Int) →
        (o.GetKeyAt pos).isSome = true ∧ (o.GetValueAt pos).isSome = true) := by
  intro o pos
  constructor
  · intro h
    have hcond : ¬(0 ≤ pos ∧ pos.toNat < o.keys.length) := by
      rcases h with h | h
      · rintro ⟨h0, -⟩
        omega
      · rintro ⟨h0, hlt⟩
        simp only [OrderedMap.Len] at h
        omega
    have hk : o.GetKeyAt pos = none := by
      unfold OrderedMap.GetKeyAt
      rw [dif_neg hcond]
    refine ⟨hk, ?_⟩
    unfold OrderedMap.GetValueAt
    rw [hk]
    rfl
  · intro h0 hlt
    simp only [OrderedMap.Len] at hlt
    have hcond : 0 ≤ pos ∧ pos.toNat < o.keys.length := ⟨h0, by omega⟩
    have hk : (o.GetKeyAt pos).isSome = true := by
      unfold OrderedMap.GetKeyAt
      rw [dif_pos hcond]
      rfl
    refine ⟨hk, ?_⟩
    unfold OrderedMap.GetValueAt
    rcases Option.isSome_iff_exists.mp hk with ⟨s, hs⟩
    rw [hs]
    rfl

/-- Witness for C9 at position -1 of a one-entry container and at its
position 0. -/
theorem claim_C9_witness :
    (((-1 : Int) < 0 ∨ ((New.Set "a" GoVal.null).Len : Int) ≤ -1)
      ∧ (New.Set "a" GoVal.null).GetKeyAt (-1) = none
      ∧ (New.Set "a" GoVal.null).GetValueAt (-1) = none)
    ∧ ((0 : Int) ≤ 0 ∧ (0 : Int) < ((New.Set "a" GoVal.null).Len : Int)
      ∧ ((New.Set "a" GoVal.null).GetKeyAt 0).isSome = true
      ∧ ((New.Set "a" GoVal.null).GetValueAt 0).isSome = true) := by
  refine ⟨⟨Or.inl (by decide), ?_⟩, ⟨by decide, by decide, ?_⟩⟩
  · exact (claim_C9 (New.Set "a" GoVal.null) (-1)).1 (Or.inl (by decide))
  · exact (claim_C9 (New.Set "a" GoVal.null) 0).2 (by decide) (by decide)

/-- C10: Get on an absent key returns the nil interface value — the same
Go value JSON null decodes to, modelled as GoVal.null — so a present key
whose stored value is null is indistinguishable from an absent key
through Get alone: the container with a set to null and the empty
container answer Get "a" identically while differing in key
membership. -/
theorem claim_C10 :
    (∀ (o : OrderedMap) (k : String), o.values.lookup k = none → o.Get k = GoVal.null)
    ∧ (New.Set "a" GoVal.null).Get "a" = New.Get "a"
    ∧ "a" ∈ (New.Set "a" GoVal.null).Keys
    ∧ "a" ∉ New.Keys := by
  refine ⟨?_, by decide, by decide, by decide⟩
  intro o k h
  unfold OrderedMap.Get
  rw [h]
  rfl

/-- Witness for C10 at a key absent from the empty container. -/
theorem claim_C10_witness :
    New.values.lookup "missing" = none ∧ New.Get "missing" = GoVal.null :=
  ⟨by decide, claim_C10.1 New "missing" (by decide)⟩

end OrderedMapSpec
